import Mathlib

/-!
Verification of the arithmetic-expression parser and codegen of this
repository (`parser.py` and `compiler.py`).  Strings are embedded as
`List Char`; Python exceptions are embedded as an `Except` error type;
the recursive parser is embedded with an explicit fuel parameter (the
top-level entry points supply fuel `length + 1`, which is always
sufficient because every recursive call is on a strictly shorter
substring).  Python `float` values are modelled as exact rationals `ℚ`:
the decimal-literal conversions performed by the program are exact in
this model, and no claim under study depends on IEEE rounding.
-/

/-- Character strings, as in the Python source (strings of `expr`). -/
abbrev Str := List Char

/-- Embedded Python exceptions: `IndexError` (unguarded `expr[0]` on an
empty string), `ValueError msg` (`raise ValueError(...)` in `parse_expr`;
the `ValueError` from `float()` is caught inside `Constant.match` and so
never escapes), and `outOfFuel`, an artifact of the fuel embedding that
never occurs at the fuel supplied by the entry points. -/
inductive PErr where
  | indexError : PErr
  | valueError : Str → PErr
  | outOfFuel : PErr
deriving DecidableEq, Repr

/-- The AST node set produced by the parser: `Constant(val)` (class
`Constant`, holding the `float(expr)` value), `Add(l_op, r_op)` and
`Mul(l_op, r_op)`.  `Paren.match` returns the parse of the interior
directly and contributes no node of its own. -/
inductive Op where
  | const : ℚ → Op
  | add : Op → Op → Op
  | mul : Op → Op → Op
deriving DecidableEq, Repr

deriving instance DecidableEq for Except

/-- Decimal digit test, `'0' ≤ c ≤ '9'`. -/
def isDigitChar (c : Char) : Bool := '0' ≤ c && c ≤ '9'

/-- Numeric value of one decimal digit character. -/
def digitVal (c : Char) : ℕ := c.toNat - '0'.toNat

/-- Value of a string of decimal digits, most significant first. -/
def digitsToNat (ds : Str) : ℕ := ds.foldl (fun a c => 10 * a + digitVal c) 0

/-- Exponent suffix of a Python float literal: optional sign then a
nonempty digit run consuming the rest of the string. -/
def expPart (t : Str) : Option ℤ :=
  let es : ℤ := if t.headD ' ' = '-' then -1 else 1
  let t1 : Str := if t.headD ' ' = '-' ∨ t.headD ' ' = '+' then t.tail else t
  let eds := t1.takeWhile isDigitChar
  let rest := t1.dropWhile isDigitChar
  if eds = [] then none
  else if rest = [] then some (es * (digitsToNat eds : ℤ))
  else none

/-- Value of a float literal with sign `sgn`, integer digits `ip`,
fractional digits `fp` and decimal exponent `ex`, as the exact rational
`sgn · (ip + 0.fp) · 10^ex`.  Written as a single integer quotient
`Rat.divInt` so that the kernel can evaluate it (the rational field
operations of the library are sealed). -/
def floatVal (sgn : ℤ) (ip fp : Str) (ex : ℤ) : ℚ :=
  Rat.divInt (sgn * ((digitsToNat ip * 10 ^ fp.length + digitsToNat fp : ℕ) : ℤ) * 10 ^ ex.toNat)
    ((10 : ℤ) ^ (fp.length + (-ex).toNat))

/-- Optional exponent and end-of-string check shared by the branches of
`pyFloat`: the remainder after the mantissa must be empty or a valid
`e`/`E` exponent suffix. -/
def expCheck (sgn : ℤ) (ip fp : Str) (rest : Str) : Option ℚ :=
  if rest = [] then some (floatVal sgn ip fp 0)
  else if rest.headD ' ' = 'e' ∨ rest.headD ' ' = 'E' then
    (expPart rest.tail).map (floatVal sgn ip fp)
  else none

/-- Model of Python's builtin `float(string)` conversion used by
`Constant.match`, with exact rational values: optional sign, then
digits with an optional decimal point (at least one digit overall),
then an optional exponent.  The builtin additionally accepts
surrounding whitespace, underscores in digit runs and `inf`/`nan`
spellings; none of those forms can interact with any claim under study
(the parser's inputs are whitespace-free strings over digits and
`.+*()`, and every rejection this development relies on is of a string
containing a character no float literal may contain).  `pyMantissa`
parses everything after the optional sign; `pyFloat` strips the sign. -/
def pyMantissa (sgn : ℤ) (s1 : Str) : Option ℚ :=
  let ip := s1.takeWhile isDigitChar
  let r1 := s1.dropWhile isDigitChar
  if r1 = [] then
    if ip = [] then none else some (floatVal sgn ip [] 0)
  else if r1.headD ' ' = '.' then
    let fp := r1.tail.takeWhile isDigitChar
    let r2 := r1.tail.dropWhile isDigitChar
    if ip = [] ∧ fp = [] then none else expCheck sgn ip fp r2
  else
    if ip = [] then none else expCheck sgn ip [] r1

def pyFloat (s : Str) : Option ℚ :=
  if s.headD ' ' = '-' then pyMantissa (-1) s.tail
  else if s.headD ' ' = '+' then pyMantissa 1 s.tail
  else pyMantissa 1 s

/-- Loop body of `naked_symbol_search` (identical in `parser.py` lines
75-87 and `compiler.py` lines 109-121): `i` is the running index and
`paren_count` the running nesting counter.  A `(` or `)` always updates
the counter (the `elif` chain never tests it against `targets`); any
other character in `targets` met while the counter is exactly `0` ends
the loop with its index. -/
def naked_symbol_search_from (targets : List Char) : Str → ℕ → ℤ → ℤ
  | [], _, _ => -1
  | sym :: rest, i, paren_count =>
    if sym = '(' then naked_symbol_search_from targets rest (i + 1) (paren_count + 1)
    else if sym = ')' then naked_symbol_search_from targets rest (i + 1) (paren_count - 1)
    else if sym ∈ targets ∧ paren_count = 0 then (i : ℤ)
    else naked_symbol_search_from targets rest (i + 1) paren_count

/-- Embedding of `naked_symbol_search(expr, targets)`: first index of a
symbol of `targets` outside all parentheses, `-1` if none. -/
def naked_symbol_search (expr : Str) (targets : List Char) : ℤ :=
  naked_symbol_search_from targets expr 0 0

/-- Message of the `ValueError` raised by `parse_expr`:
`'Could not parse expr: "%s"' % expr`. -/
def errMsg (expr : Str) : Str :=
  "Could not parse expr: \"".data ++ expr ++ "\"".data

/-- Embedding of `Add.match` (identical in both files): split at the
first naked `+`, recursively parse both sides (left first, as Python
evaluates the arguments of `cls(...)` left to right), combine as `Add`.
`pe` is the recursive entry into `parse_expr`. -/
def Add_match (pe : Str → Except PErr Op) (expr : Str) : Except PErr (Option Op) :=
  let idx := naked_symbol_search expr ['+']
  if idx = -1 then .ok none
  else do
    let l ← pe (expr.take idx.toNat)
    let r ← pe (expr.drop (idx.toNat + 1))
    .ok (some (.add l r))

/-- Embedding of `Mul.match` (identical in both files). -/
def Mul_match (pe : Str → Except PErr Op) (expr : Str) : Except PErr (Option Op) :=
  let idx := naked_symbol_search expr ['*']
  if idx = -1 then .ok none
  else do
    let l ← pe (expr.take idx.toNat)
    let r ← pe (expr.drop (idx.toNat + 1))
    .ok (some (.mul l r))

/-- Embedding of `Paren.match` of `parser.py` (lines 51-55): on an empty
string, `expr[0]` raises `IndexError`; otherwise, if the first character
is `(` and the last is `)`, the interior `expr[1:-1]` is parsed with no
balance check at all. -/
def parser_Paren_match (pe : Str → Except PErr Op) (expr : Str) : Except PErr (Option Op) :=
  match expr with
  | [] => .error .indexError
  | c :: rest =>
    if c = '(' ∧ (c :: rest).getLast? = some ')' then do
      let inner ← pe rest.dropLast
      .ok (some inner)
    else .ok none

/-- Interior scan of `Paren.match` of `compiler.py` (lines 75-83): the
running count over `expr[1:-1]`, stopping early (with its negative
value) as soon as the count drops below zero. -/
def balance_scan : Str → ℤ → ℤ
  | [], count => count
  | symb :: rest, count =>
    let count' := if symb = '(' then count + 1 else if symb = ')' then count - 1 else count
    if count' < 0 then count' else balance_scan rest count'

/-- Embedding of `Paren.match` of `compiler.py` (lines 71-86): as the
`parser.py` variant, but the interior is parsed only if the balance
scan of the whole interior ends at exactly zero without ever dipping
negative. -/
def compiler_Paren_match (pe : Str → Except PErr Op) (expr : Str) : Except PErr (Option Op) :=
  match expr with
  | [] => .error .indexError
  | c :: rest =>
    if c = '(' ∧ (c :: rest).getLast? = some ')' then
      if balance_scan rest.dropLast 0 = 0 then do
        let inner ← pe rest.dropLast
        .ok (some inner)
      else .ok none
    else .ok none

/-- Embedding of `Constant.match` (identical in both files): attempt
`float(expr)`, catching the `ValueError`; so this matcher never raises. -/
def Constant_match (expr : Str) : Option Op := (pyFloat expr).map .const

/-- Embedding of `parse_expr` (identical in both files up to the choice
of `Paren.match`, passed as `paren`).  Lines 93-96 evaluate all four
matchers in order — so an exception from any of them propagates, even
when an earlier matcher already produced a match — and lines 98-99
re-evaluate them (pure, hence the same values) taking the first
success; if none matched, `ValueError` is raised.  The fuel argument
decreases on each recursive call. -/
def parse_expr_core
    (paren : (Str → Except PErr Op) → Str → Except PErr (Option Op)) :
    ℕ → Str → Except PErr Op
  | 0, _ => .error .outOfFuel
  | fuel + 1, expr => do
    let add_op ← Add_match (parse_expr_core paren fuel) expr
    let mul_op ← Mul_match (parse_expr_core paren fuel) expr
    let paren_op ← paren (parse_expr_core paren fuel) expr
    let constant_op := Constant_match expr
    match add_op <|> mul_op <|> paren_op <|> constant_op with
    | some op => .ok op
    | none => .error (.valueError (errMsg expr))

/-- The `parse_expr` of `parser.py` (lines 92-103), fuelled. -/
def parser_parse_expr : ℕ → Str → Except PErr Op :=
  parse_expr_core parser_Paren_match

/-- The `parse_expr` of `compiler.py` (lines 126-137), fuelled. -/
def compiler_parse_expr : ℕ → Str → Except PErr Op :=
  parse_expr_core compiler_Paren_match

/-- Top-level parse via `parser.py`, at the always-sufficient fuel. -/
def parser_parse (expr : Str) : Except PErr Op :=
  parser_parse_expr (expr.length + 1) expr

/-- Top-level parse via `compiler.py`, at the always-sufficient fuel. -/
def compiler_parse (expr : Str) : Except PErr Op :=
  compiler_parse_expr (expr.length + 1) expr

/-- Character for one decimal digit value (clamped at `9`; the inputs
used below are always remainders or quotients below ten). -/
def digitChar (k : ℕ) : Char :=
  match k with
  | 0 => '0' | 1 => '1' | 2 => '2' | 3 => '3' | 4 => '4'
  | 5 => '5' | 6 => '6' | 7 => '7' | 8 => '8' | _ => '9'

/-- Decimal digits of a natural number, most significant first
(fuelled; empty on zero). -/
def natDigitsAux : ℕ → ℕ → Str
  | 0, _ => []
  | fuel + 1, n =>
    if n = 0 then []
    else natDigitsAux fuel (n / 10) ++ [digitChar (n % 10)]

/-- Decimal rendering of a natural number, `0` included. -/
def natDigits (n : ℕ) : Str :=
  if n = 0 then ['0'] else natDigitsAux (n + 1) n

/-- Fractional decimal digits of the proper fraction `rem / d`, most
significant first, by repeated multiply-by-ten division, stopping when
the remainder reaches zero (fuelled). -/
def fracDigits : ℕ → ℕ → ℕ → Str
  | 0, _, _ => []
  | fuel + 1, rem, d =>
    if rem = 0 then []
    else digitChar (rem * 10 / d) :: fracDigits fuel (rem * 10 % d) d

/-- Digits printed after the decimal point: the fractional digits of
`rem / d`, or the single digit `0` when the fraction is zero. -/
def fracTail (rem d : ℕ) : Str :=
  if fracDigits 200 rem d = [] then ['0'] else fracDigits 200 rem d

/-- Model of Python's `str(float)` for the exact-rational float model:
optional minus sign, integer digits, a decimal point, then the
fractional digits (a single `0` when there are none), e.g. `1.0`,
`3.5`.  Python's shortest-repr algorithm agrees with this on the values
these claims evaluate; what every proof below relies on is only that
the result never contains `+`, `*`, `(` or `)`, which holds for
Python's repr of every nonspecial float this program can build from
its input alphabet. -/
def floatStr (v : ℚ) : Str :=
  (if v.num < 0 then ['-'] else []) ++ natDigits (v.num.natAbs / v.den) ++
    '.' :: fracTail (v.num.natAbs % v.den) v.den

/-- Embedding of the `__str__` pretty printers: `Constant.__str__` is
`str(self.val)`, `Add.__str__` is `'Add(%s, %s)'`, `Mul.__str__` is
`'Mul(%s, %s)'`. -/
def Op_str : Op → Str
  | .const v => floatStr v
  | .add l r => "Add(".data ++ Op_str l ++ ", ".data ++ Op_str r ++ ")".data
  | .mul l r => "Mul(".data ++ Op_str l ++ ", ".data ++ Op_str r ++ ")".data

/-- Values of the llvmlite IR builder model: `cst v` is a constant
value (`llvm_float_t(self.val)`, created without emitting an
instruction), `ref n` refers to the instruction at index `n` of the
entry block. -/
inductive Val where
  | cst : ℚ → Val
  | ref : ℕ → Val
deriving DecidableEq

/-- Instructions emitted into the entry block by `codegen`. -/
inductive Instr where
  | fadd : Val → Val → Instr
  | fmul : Val → Val → Instr
deriving DecidableEq

/-- Model of `irb.fadd(lval, rval)`: append the instruction, return a
reference to it. -/
def irb_fadd (s : List Instr) (a b : Val) : Val × List Instr :=
  (.ref s.length, s ++ [.fadd a b])

/-- Model of `irb.fmul(lval, rval)`. -/
def irb_fmul (s : List Instr) (a b : Val) : Val × List Instr :=
  (.ref s.length, s ++ [.fmul a b])

/-- Embedding of the `codegen` methods of `compiler.py`: the IR builder
is the list of instructions of the entry block, threaded through.
`Constant.codegen` returns `llvm_float_t(self.val)` without touching
the builder; `Add.codegen`/`Mul.codegen` generate the left operand,
then the right, then append the combining instruction. -/
def codegen : Op → List Instr → Val × List Instr
  | .const v, s => (.cst v, s)
  | .add l r, s =>
    let (lval, s1) := codegen l s
    let (rval, s2) := codegen r s1
    irb_fadd s2 lval rval
  | .mul l r, s =>
    let (lval, s1) := codegen l s
    let (rval, s2) := codegen r s1
    irb_fmul s2 lval rval

/-- Reference evaluation of an AST, interpreting `Constant.codegen` as
the numeric constant, `Add.codegen` as addition and `Mul.codegen` as
multiplication. -/
def evalOp : Op → ℚ
  | .const v => v
  | .add l r => evalOp l + evalOp r
  | .mul l r => evalOp l * evalOp r

/-- Nesting step of one character: `+1` on `(`, `-1` on `)`, `0`
otherwise. -/
def pstep (c : Char) : ℤ := if c = '(' then 1 else if c = ')' then -1 else 0

/-- Nesting depth accumulated over a whole string (number of `(` minus
number of `)`). -/
def pdepth (e : Str) : ℤ := (e.map pstep).sum

/-- Modelled from the spec: the naked-symbol scan "reports the index of
the first character in the target set seen while the counter is exactly
zero".  `nakedAtB e ts i` states that position `i` of `e` would be
reported under that description, amended so that `(` and `)` always act
as counter updates and are never reported as targets, which is what the
`elif` chain of the code does; the counter value at which a character
is "seen" is the nesting depth of the prefix before it. -/
def nakedAtB (e : Str) (ts : List Char) (i : ℕ) : Bool :=
  !(e.getD i ' ' = '(') && !(e.getD i ' ' = ')') && (e.getD i ' ' ∈ ts)
    && (pdepth (e.take i) = 0)

/-- Character `c` never occurs in `e` at nesting depth zero. -/
def NNaked (c : Char) (e : Str) : Prop :=
  ∀ j, j < e.length → e.getD j ' ' = c → pdepth (e.take j) ≠ 0

/-- The string `e` is parenthesis-balanced: the whole string closes
every parenthesis it opens, and no prefix closes more than it opened. -/
def balancedStr (e : Str) : Prop :=
  pdepth e = 0 ∧ ∀ k, 0 ≤ pdepth (e.take k)

/-- Result of `parse_expr` as the spec describes it: the result of the
first of the four match attempts (additive, multiplicative,
parenthesized, literal) that produced a match, or the `ValueError`
when none did. -/
def firstMatchResult (ao mo po co : Option Op) (e : Str) : Except PErr Op :=
  match ao with
  | some op => .ok op
  | none =>
    match mo with
    | some op => .ok op
    | none =>
      match po with
      | some op => .ok op
      | none =>
        match co with
        | some op => .ok op
        | none => .error (.valueError (errMsg e))

/- Grammar of valid expressions, in the standard stratified form that
encodes arithmetic precedence: a sum is a nonempty `+`-separated chain
of products, a product a nonempty `*`-separated chain of atoms, an
atom a numeral or a parenthesized sum.  This language is exactly the
set of well-formed expressions over non-negative numerals, `+`, `*`
and balanced parentheses, and its evaluation (below) is evaluation
under standard precedence. -/
mutual
inductive SumE where
  | single : ProdE → SumE
  | plus : ProdE → SumE → SumE
inductive ProdE where
  | single : AtomE → ProdE
  | times : AtomE → ProdE → ProdE
inductive AtomE where
  | num : Str → Option Str → AtomE
  | paren : SumE → AtomE
end

/- Rendering of a grammar term back to its expression string; a
numeral `num ip fp` prints as its integer digits followed, when `fp`
is present, by a decimal point and the fractional digits. -/
mutual
def renderS : SumE → Str
  | .single p => renderP p
  | .plus p s => renderP p ++ '+' :: renderS s
def renderP : ProdE → Str
  | .single a => renderA a
  | .times a p => renderA a ++ '*' :: renderP p
def renderA : AtomE → Str
  | .num ip fp => ip ++ (match fp with | none => [] | some f => '.' :: f)
  | .paren s => '(' :: renderS s ++ [')']
end

/- Well-formedness of a grammar term: all numeral digit strings hold
decimal digits only and contain at least one digit. -/
mutual
def wfS : SumE → Bool
  | .single p => wfP p
  | .plus p s => wfP p && wfS s
def wfP : ProdE → Bool
  | .single a => wfA a
  | .times a p => wfA a && wfP p
def wfA : AtomE → Bool
  | .num ip fp =>
    ip.all isDigitChar &&
      (match fp with
       | none => !ip.isEmpty
       | some f => f.all isDigitChar && (!ip.isEmpty || !f.isEmpty))
  | .paren s => wfS s
end

/-- Exact value of a non-negative numeral with integer digits `ip` and
optional fractional digits `fp`. -/
def numValQ (ip : Str) (fp : Option Str) : ℚ :=
  floatVal 1 ip (fp.getD []) 0

/- Reference evaluation of a valid expression under standard
arithmetic precedence: `*` binds tighter than `+`, parentheses group.
Chains of `+` (respectively `*`) associate to the right here; over the
rationals this agrees with left-to-right evaluation because both
operations are associative. -/
mutual
def evalS : SumE → ℚ
  | .single p => evalP p
  | .plus p s => evalP p + evalS s
def evalP : ProdE → ℚ
  | .single a => evalA a
  | .times a p => evalA a * evalP p
def evalA : AtomE → ℚ
  | .num ip fp => numValQ ip fp
  | .paren s => evalS s
end

/- The AST the parser is expected to produce for a grammar term:
splitting at the first naked `+` (respectively `*`) makes operator
chains right-nested, and parentheses contribute no node. -/
mutual
def treeS : SumE → Op
  | .single p => treeP p
  | .plus p s => .add (treeP p) (treeS s)
def treeP : ProdE → Op
  | .single a => treeA a
  | .times a p => .mul (treeA a) (treeP p)
def treeA : AtomE → Op
  | .num ip fp => .const (numValQ ip fp)
  | .paren s => treeS s
end

/- Size measure for strong induction across the three grammar sorts. -/
mutual
def sizeS : SumE → ℕ
  | .single p => sizeP p + 1
  | .plus p s => sizeP p + sizeS s + 1
def sizeP : ProdE → ℕ
  | .single a => sizeA a + 1
  | .times a p => sizeA a + sizeP p + 1
def sizeA : AtomE → ℕ
  | .num _ _ => 1
  | .paren s => sizeS s + 1
end

/-- The tree `op` decomposes the string `e` completely: every node
corresponds to a contiguous substring, the leaves consume exactly the
numeral strings accepted by `float`, each binary node consumes its
operator character, parenthesized groups consume both boundary
parentheses, and nothing of `e` is left over or missing. -/
inductive ExactCovers : Op → Str → Prop where
  | const : ∀ (v : ℚ) (e : Str), pyFloat e = some v → ExactCovers (.const v) e
  | add : ∀ (l r : Op) (s1 s2 : Str),
      ExactCovers l s1 → ExactCovers r s2 → ExactCovers (.add l r) (s1 ++ '+' :: s2)
  | mul : ∀ (l r : Op) (s1 s2 : Str),
      ExactCovers l s1 → ExactCovers r s2 → ExactCovers (.mul l r) (s1 ++ '*' :: s2)
  | paren : ∀ (op : Op) (s : Str),
      ExactCovers op s → ExactCovers op ('(' :: s ++ [')'])

/-- Instructions appended to the builder by generating code for `x`
starting from block state `s`. -/
def emitted (x : Op) (s : List Instr) : List Instr :=
  ((codegen x s).2).drop s.length

theorem pdepth_nil : pdepth [] = 0 := rfl

theorem pdepth_cons (c : Char) (e : Str) : pdepth (c :: e) = pstep c + pdepth e := by
  simp [pdepth]

theorem pdepth_append (a b : Str) : pdepth (a ++ b) = pdepth a + pdepth b := by
  simp [pdepth]

theorem nss_from_none (ts : List Char) :
    ∀ (e : Str) (i0 : ℕ) (c0 : ℤ),
      (∀ j, j < e.length → e.getD j ' ' ≠ '(' → e.getD j ' ' ≠ ')' →
        e.getD j ' ' ∈ ts → c0 + pdepth (e.take j) ≠ 0) →
      naked_symbol_search_from ts e i0 c0 = -1 := by
  intro e
  induction e with
  | nil => intro i0 c0 _; rfl
  | cons sym rest ih =>
    intro i0 c0 h
    unfold naked_symbol_search_from
    by_cases h1 : sym = '('
    · simp only [h1, if_true]
      apply ih
      intro j hj hn1 hn2 hmem
      have := h (j + 1) (by simpa using Nat.succ_lt_succ hj)
        (by simpa using hn1) (by simpa using hn2) (by simpa using hmem)
      rw [List.take_succ_cons, pdepth_cons, h1] at this
      have hs : pstep '(' = 1 := by simp [pstep]
      rw [hs] at this
      intro hc; apply this; linarith
    · by_cases h2 : sym = ')'
      · simp only [h1, h2, if_false, if_true]
        apply ih
        intro j hj hn1 hn2 hmem
        have := h (j + 1) (by simpa using Nat.succ_lt_succ hj)
          (by simpa using hn1) (by simpa using hn2) (by simpa using hmem)
        rw [List.take_succ_cons, pdepth_cons, h2] at this
        have hs : pstep ')' = -1 := by simp [pstep]
        rw [hs] at this
        intro hc; apply this; linarith
      · by_cases h3 : sym ∈ ts ∧ c0 = 0
        · exfalso
          have := h 0 (by simp) (by simpa using h1) (by simpa using h2) (by simpa using h3.1)
          simp [h3.2, pdepth] at this
        · simp only [h1, h2, h3, if_false]
          apply ih
          intro j hj hn1 hn2 hmem
          have := h (j + 1) (by simpa using Nat.succ_lt_succ hj)
            (by simpa using hn1) (by simpa using hn2) (by simpa using hmem)
          rw [List.take_succ_cons, pdepth_cons] at this
          have hs : pstep sym = 0 := by simp [pstep, h1, h2]
          rw [hs] at this
          intro hc; apply this; linarith

theorem nss_from_found (ts : List Char) :
    ∀ (e : Str) (j : ℕ) (i0 : ℕ) (c0 : ℤ),
      j < e.length → e.getD j ' ' ≠ '(' → e.getD j ' ' ≠ ')' → e.getD j ' ' ∈ ts →
      c0 + pdepth (e.take j) = 0 →
      (∀ k, k < j → e.getD k ' ' ≠ '(' → e.getD k ' ' ≠ ')' →
        e.getD k ' ' ∈ ts → c0 + pdepth (e.take k) ≠ 0) →
      naked_symbol_search_from ts e i0 c0 = (i0 : ℤ) + j := by
  intro e
  induction e with
  | nil => intro j i0 c0 hj; exact absurd hj (by simp)
  | cons sym rest ih =>
    intro j i0 c0 hj hn1 hn2 hmem hdep hbefore
    match j with
    | 0 =>
      simp only [List.getD_cons_zero] at hn1 hn2 hmem
      simp only [List.take_zero, pdepth_nil, add_zero] at hdep
      unfold naked_symbol_search_from
      simp [hn1, hn2, hmem, hdep]
    | j' + 1 =>
      have hj' : j' < rest.length := by simpa using Nat.lt_of_succ_lt_succ hj
      rw [List.take_succ_cons, pdepth_cons] at hdep
      have hrec : ∀ k, k < j' → rest.getD k ' ' ≠ '(' → rest.getD k ' ' ≠ ')' →
          rest.getD k ' ' ∈ ts → (c0 + pstep sym) + pdepth (rest.take k) ≠ 0 := by
        intro k hk hk1 hk2 hkm
        have := hbefore (k + 1) (Nat.succ_lt_succ hk)
          (by simpa using hk1) (by simpa using hk2) (by simpa using hkm)
        rw [List.take_succ_cons, pdepth_cons] at this
        intro hc; apply this; linarith
      unfold naked_symbol_search_from
      by_cases h1 : sym = '('
      · simp only [h1, if_true]
        have hs : pstep sym = 1 := by simp [pstep, h1]
        have harg : c0 + pstep sym = c0 + 1 := by rw [hs]
        have := ih j' (i0 + 1) (c0 + pstep sym)
          hj' (by simpa using hn1) (by simpa using hn2) (by simpa using hmem)
          (by rw [hs] at hdep ⊢; linarith) hrec
        rw [harg] at this
        rw [this]; push_cast; ring
      · by_cases h2 : sym = ')'
        · simp only [h1, h2, if_false, if_true]
          have hs : pstep sym = -1 := by simp [pstep, h1, h2]
          have harg : c0 + pstep sym = c0 - 1 := by rw [hs]; ring
          have := ih j' (i0 + 1) (c0 + pstep sym)
            hj' (by simpa using hn1) (by simpa using hn2) (by simpa using hmem)
            (by rw [hs] at hdep ⊢; linarith) hrec
          rw [harg] at this
          rw [this]; push_cast; ring
        · have hs : pstep sym = 0 := by simp [pstep, h1, h2]
          by_cases h3 : sym ∈ ts ∧ c0 = 0
          · exfalso
            have := hbefore 0 (Nat.succ_pos j') (by simpa using h1) (by simpa using h2)
              (by simpa using h3.1)
            simp [h3.2, pdepth] at this
          · simp only [h1, h2, h3, if_false]
            have harg : c0 + pstep sym = c0 := by rw [hs]; ring
            have := ih j' (i0 + 1) (c0 + pstep sym)
              hj' (by simpa using hn1) (by simpa using hn2) (by simpa using hmem)
              (by rw [hs] at hdep ⊢; linarith) hrec
            rw [harg] at this
            rw [this]; push_cast; ring

theorem nss_eq_neg_one (e : Str) (ts : List Char)
    (h : ∀ j, j < e.length → e.getD j ' ' ≠ '(' → e.getD j ' ' ≠ ')' →
      e.getD j ' ' ∈ ts → pdepth (e.take j) ≠ 0) :
    naked_symbol_search e ts = -1 := by
  apply nss_from_none
  intro j hj h1 h2 h3
  simpa using h j hj h1 h2 h3

theorem nss_eq_idx (e : Str) (ts : List Char) (j : ℕ) (hj : j < e.length)
    (h1 : e.getD j ' ' ≠ '(') (h2 : e.getD j ' ' ≠ ')') (h3 : e.getD j ' ' ∈ ts)
    (h4 : pdepth (e.take j) = 0)
    (h5 : ∀ k, k < j → e.getD k ' ' ≠ '(' → e.getD k ' ' ≠ ')' →
      e.getD k ' ' ∈ ts → pdepth (e.take k) ≠ 0) :
    naked_symbol_search e ts = (j : ℤ) := by
  have := nss_from_found ts e j 0 0 hj h1 h2 h3 (by simpa using h4)
    (by intro k hk hk1 hk2 hk3; simpa using h5 k hk hk1 hk2 hk3)
  simpa using this

theorem getD_append_left (A B : Str) (j : ℕ) (h : j < A.length) :
    (A ++ B).getD j ' ' = A.getD j ' ' := by
  simp [List.getD_eq_getElem?_getD, List.getElem?_append_left h]

theorem getD_append_cons (A B : Str) (c : Char) :
    (A ++ c :: B).getD A.length ' ' = c := by
  simp [List.getD_eq_getElem?_getD, List.getElem?_append_right (Nat.le_refl A.length)]

theorem getD_append_cons_right (A B : Str) (c : Char) (k : ℕ) :
    (A ++ c :: B).getD (A.length + 1 + k) ' ' = B.getD k ' ' := by
  have h : A.length ≤ A.length + 1 + k := by omega
  rw [List.getD_eq_getElem?_getD, List.getElem?_append_right h]
  have : A.length + 1 + k - A.length = k + 1 := by omega
  rw [this]
  simp

theorem take_append_left (A B : Str) (j : ℕ) (h : j ≤ A.length) :
    (A ++ B).take j = A.take j := by
  rw [List.take_append_eq_append_take]
  have : j - A.length = 0 := by omega
  simp [this]

theorem take_append_cons_right (A B : Str) (c : Char) (k : ℕ) :
    (A ++ c :: B).take (A.length + 1 + k) = A ++ c :: B.take k := by
  rw [List.take_append_eq_append_take]
  have h1 : A.length + 1 + k - A.length = k + 1 := by omega
  rw [h1]
  have h3 : A.take (A.length + 1 + k) = A := List.take_of_length_le (by omega)
  rw [h3, List.take_succ_cons]

theorem pdepth_take_append_cons (A B : Str) (c : Char) (k : ℕ) :
    pdepth ((A ++ c :: B).take (A.length + 1 + k)) = pdepth A + pstep c + pdepth (B.take k) := by
  rw [take_append_cons_right, pdepth_append, pdepth_cons]
  ring

theorem getD_mem (e : Str) (j : ℕ) (h : j < e.length) : e.getD j ' ' ∈ e := by
  rw [List.getD_eq_getElem?_getD, List.getElem?_eq_getElem h]
  exact List.getElem_mem h

theorem NNaked_of_not_mem (c : Char) (e : Str) (h : c ∉ e) : NNaked c e := by
  intro j hj hcj
  exact absurd (hcj ▸ getD_mem e j hj) h

theorem NNaked_append (c : Char) (A B : Str) (d : Char)
    (hA : NNaked c A) (h0 : pdepth A = 0) (hd : d ≠ c) (hdstep : pstep d = 0)
    (hB : NNaked c B) : NNaked c (A ++ d :: B) := by
  intro j hj hcj
  rcases lt_trichotomy j A.length with hlt | heq | hgt
  · rw [getD_append_left _ _ _ hlt] at hcj
    rw [take_append_left _ _ _ (Nat.le_of_lt hlt)]
    exact hA j hlt hcj
  · subst heq
    rw [getD_append_cons] at hcj
    exact absurd hcj hd
  · obtain ⟨k, rfl⟩ : ∃ k, j = A.length + 1 + k := ⟨j - A.length - 1, by omega⟩
    rw [getD_append_cons_right] at hcj
    rw [pdepth_take_append_cons, h0, hdstep]
    have hk : k < B.length := by
      simp only [List.length_append, List.length_cons] at hj
      omega
    have := hB k hk hcj
    intro hc; apply this; linarith

theorem NNaked_paren (c : Char) (X : Str) (hc1 : c ≠ '(') (hc2 : c ≠ ')')
    (hX : ∀ k, 0 ≤ pdepth (X.take k)) : NNaked c ('(' :: X ++ [')']) := by
  intro j hj hcj
  match j with
  | 0 =>
    simp only [List.cons_append, List.getD_cons_zero] at hcj
    exact absurd hcj.symm hc1
  | k + 1 =>
    simp only [List.cons_append, List.getD_cons_succ] at hcj
    simp only [List.cons_append, List.length_cons, List.length_append,
      List.length_nil] at hj
    have hk : k ≤ X.length := by omega
    rcases lt_or_eq_of_le hk with hlt | heq
    · rw [getD_append_left _ _ _ hlt] at hcj
      rw [List.cons_append, List.take_succ_cons, pdepth_cons,
        take_append_left _ _ _ (Nat.le_of_lt hlt)]
      have h1 : pstep '(' = 1 := by simp [pstep]
      rw [h1]
      have := hX k
      intro hc; linarith
    · subst heq
      have : (X ++ [')']).getD X.length ' ' = ')' := getD_append_cons X [] ')'
      rw [this] at hcj
      exact absurd hcj.symm hc2

theorem nss_single_none (e : Str) (c : Char) (h : NNaked c e) :
    naked_symbol_search e [c] = -1 := by
  apply nss_eq_neg_one
  intro j hj _ _ hmem
  exact h j hj (by simpa using hmem)

theorem nss_single_at (A B : Str) (c : Char)
    (hA : NNaked c A) (hd : pdepth A = 0) (hc1 : c ≠ '(') (hc2 : c ≠ ')') :
    naked_symbol_search (A ++ c :: B) [c] = (A.length : ℤ) := by
  apply nss_eq_idx
  · simp only [List.length_append, List.length_cons]; omega
  · rw [getD_append_cons]; exact hc1
  · rw [getD_append_cons]; exact hc2
  · rw [getD_append_cons]; simp
  · rw [take_append_left _ _ _ (Nat.le_refl _), List.take_of_length_le (Nat.le_refl _)]
    exact hd
  · intro k hk _ _ hmem
    rw [getD_append_left _ _ _ hk] at hmem
    rw [take_append_left _ _ _ (Nat.le_of_lt hk)]
    exact hA k hk (by simpa using hmem)

theorem parse_expr_core_eval
    (paren : (Str → Except PErr Op) → Str → Except PErr (Option Op))
    (fuel : ℕ) (e : Str) (ao mo po : Option Op)
    (hA : Add_match (parse_expr_core paren fuel) e = .ok ao)
    (hM : Mul_match (parse_expr_core paren fuel) e = .ok mo)
    (hP : paren (parse_expr_core paren fuel) e = .ok po) :
    parse_expr_core paren (fuel + 1) e =
      match ao <|> mo <|> po <|> Constant_match e with
      | some op => .ok op
      | none => .error (.valueError (errMsg e)) := by
  rw [parse_expr_core]
  rw [hA, hM, hP]
  rfl

/-- Claim C2 (amended): on any input, `parse_expr` evaluates the four
variant matchers in the order additive, multiplicative, parenthesized,
literal; provided none of the matchers raises an exception, it returns
the result of the first variant that matches (and the `ValueError`
when none matches).  The original claim is refuted by
`c2_counterexample`: because `parse_expr` evaluates every matcher even
after one has matched, an exception from a later matcher overrides an
earlier successful match. -/
theorem c2_first_match_when_no_raise
    (paren : (Str → Except PErr Op) → Str → Except PErr (Option Op))
    (fuel : ℕ) (e : Str) (ao mo po : Option Op)
    (hA : Add_match (parse_expr_core paren fuel) e = .ok ao)
    (hM : Mul_match (parse_expr_core paren fuel) e = .ok mo)
    (hP : paren (parse_expr_core paren fuel) e = .ok po) :
    parse_expr_core paren (fuel + 1) e
      = firstMatchResult ao mo po (Constant_match e) e := by
  rw [parse_expr_core_eval paren fuel e ao mo po hA hM hP]
  cases ao with
  | some a => simp [firstMatchResult]
  | none =>
    cases mo with
    | some m => simp [firstMatchResult]
    | none =>
      cases po with
      | some p => simp [firstMatchResult]
      | none =>
        cases hco : Constant_match e with
        | some c => simp [firstMatchResult, hco]
        | none => simp [firstMatchResult, hco]

theorem c2_first_match_witness :
    parse_expr_core parser_Paren_match 3 "1+2".data
      = .ok (.add (.const 1) (.const 2)) := by
  have h := c2_first_match_when_no_raise parser_Paren_match 2 "1+2".data
    (some (.add (.const 1) (.const 2))) none none
    (by decide) (by decide) (by decide)
  rw [h]; decide

/-- Claim C2 (counterexample): on `"(1+2)*(3+4)"`, the multiplicative
variant matches — it is the first variant to match, since the additive
one finds no naked `+` — yet `parser.py`'s `parse_expr` does not return
its result: the parenthesized-group matcher, evaluated afterwards,
raises a `ValueError` (on sub-string `2)*(3`) that aborts the parse. -/
theorem c2_counterexample :
    Mul_match parser_parse "(1+2)*(3+4)".data
      = .ok (some (.mul (.add (.const 1) (.const 2)) (.add (.const 3) (.const 4)))) ∧
    parser_parse "(1+2)*(3+4)".data = .error (.valueError (errMsg "2)*(3".data)) := by
  exact ⟨by decide, by decide⟩

/-- Claim C4 (amended): whenever all four variant matchers return "no
match" (without raising), `parse_expr` raises `ValueError` — not a
dedicated `ParseError` class — with message
`Could not parse expr: "<expr>"`, identifying the offending substring;
nothing catches it, so it propagates unchanged to the caller. -/
theorem c4_no_match_value_error
    (paren : (Str → Except PErr Op) → Str → Except PErr (Option Op))
    (fuel : ℕ) (e : Str)
    (hA : Add_match (parse_expr_core paren fuel) e = .ok none)
    (hM : Mul_match (parse_expr_core paren fuel) e = .ok none)
    (hP : paren (parse_expr_core paren fuel) e = .ok none)
    (hC : Constant_match e = none) :
    parse_expr_core paren (fuel + 1) e = .error (.valueError (errMsg e)) := by
  rw [parse_expr_core_eval paren fuel e none none none hA hM hP]
  simp [hC]

theorem c4_no_match_value_error_witness :
    parser_parse ".".data = .error (.valueError (errMsg ".".data)) :=
  c4_no_match_value_error parser_Paren_match 1 ".".data
    (by decide) (by decide) (by decide) (by decide)

/-- Claim C4 (counterexample): the error actually raised on the
unmatchable input `"."` is a `ValueError` whose message is
`Could not parse expr: "."`, not the claimed
`could not parse expression: .`. -/
theorem c4_counterexample :
    parser_parse ".".data = .error (.valueError ("Could not parse expr: \".\"".data)) ∧
    ("Could not parse expr: \".\"".data : Str) ≠ "could not parse expression: .".data := by
  exact ⟨by decide, by decide⟩

/-- Claim C5: on `"1+"`, the additive split fires at index 1 and
produces the empty right-hand substring, and the parse fails — but
with `IndexError` (from the unguarded `expr[0]` of `Paren.match` on
that empty substring), not with the `ParseError` the spec prescribes,
in both `parser.py` and `compiler.py`. -/
theorem c5_parse_one_plus_fails :
    naked_symbol_search "1+".data ['+'] = 1 ∧
    "1+".data.drop 2 = [] ∧
    parser_parse "1+".data = .error .indexError ∧
    compiler_parse "1+".data = .error .indexError := by
  exact ⟨by decide, by decide, by decide, by decide⟩

/-- Claim C10: both `Paren.match` variants read `expr[0]` without an
emptiness guard, so on the empty string they raise `IndexError`; and
`parse_expr` on the empty substrings arising from `"1+"`-like and
`"()"`-like inputs therefore fails with `IndexError`, not with the
`ValueError` used for unmatched substrings. -/
theorem c10_empty_string_index_error :
    (∀ pe : Str → Except PErr Op,
      parser_Paren_match pe [] = .error .indexError ∧
      compiler_Paren_match pe [] = .error .indexError) ∧
    parser_parse [] = .error .indexError ∧
    compiler_parse [] = .error .indexError ∧
    parser_parse "()".data = .error .indexError ∧
    compiler_parse "()".data = .error .indexError := by
  exact ⟨fun pe => ⟨rfl, rfl⟩, by decide, by decide, by decide, by decide⟩

theorem codegen_prefix : ∀ (x : Op) (s : List Instr), ∃ E, (codegen x s).2 = s ++ E := by
  intro x
  induction x with
  | const v => intro s; exact ⟨[], by simp [codegen]⟩
  | add l r ihl ihr =>
    intro s
    rcases hcl : codegen l s with ⟨lv, s1⟩
    rcases hcr : codegen r s1 with ⟨rv, s2⟩
    obtain ⟨E1, h1⟩ := ihl s
    obtain ⟨E2, h2⟩ := ihr s1
    rw [hcl] at h1
    rw [hcr] at h2
    replace h1 : s1 = s ++ E1 := h1
    replace h2 : s2 = s1 ++ E2 := h2
    refine ⟨E1 ++ E2 ++ [.fadd lv rv], ?_⟩
    simp only [codegen, hcl, hcr, irb_fadd]
    rw [h2, h1]
    simp [List.append_assoc]
  | mul l r ihl ihr =>
    intro s
    rcases hcl : codegen l s with ⟨lv, s1⟩
    rcases hcr : codegen r s1 with ⟨rv, s2⟩
    obtain ⟨E1, h1⟩ := ihl s
    obtain ⟨E2, h2⟩ := ihr s1
    rw [hcl] at h1
    rw [hcr] at h2
    replace h1 : s1 = s ++ E1 := h1
    replace h2 : s2 = s1 ++ E2 := h2
    refine ⟨E1 ++ E2 ++ [.fmul lv rv], ?_⟩
    simp only [codegen, hcl, hcr, irb_fmul]
    rw [h2, h1]
    simp [List.append_assoc]

theorem codegen_state_eq (x : Op) (s : List Instr) :
    (codegen x s).2 = s ++ emitted x s := by
  obtain ⟨E, h⟩ := codegen_prefix x s
  rw [emitted, h, List.drop_left]

/-- Claim C9: code emission for a binary node evaluates the left child
first (its instructions form the first block of the emitted sequence),
then the right child, and then appends the single combining
instruction (`fadd` for `Add`, `fmul` for `Mul`) applied to the two
child result values; emission for a `Constant` node is exactly the
constant value `llvm_float_t(val)` with no instruction emitted. -/
theorem c9_codegen_order : ∀ (l r : Op) (s : List Instr),
    emitted (.add l r) s
      = emitted l s ++ emitted r ((codegen l s).2)
        ++ [Instr.fadd (codegen l s).1 (codegen r ((codegen l s).2)).1] ∧
    emitted (.mul l r) s
      = emitted l s ++ emitted r ((codegen l s).2)
        ++ [Instr.fmul (codegen l s).1 (codegen r ((codegen l s).2)).1] ∧
    ∀ v : ℚ, codegen (.const v) s = (.cst v, s) := by
  intro l r s
  refine ⟨?_, ?_, fun v => rfl⟩
  · rcases hcl : codegen l s with ⟨lv, s1⟩
    rcases hcr : codegen r s1 with ⟨rv, s2⟩
    have h1 : s1 = s ++ emitted l s := by
      have := codegen_state_eq l s; rw [hcl] at this; exact this
    have h2 : s2 = s1 ++ emitted r s1 := by
      have := codegen_state_eq r s1; rw [hcr] at this; exact this
    rw [emitted]
    simp only [codegen, hcl, hcr, irb_fadd]
    rw [h2, h1, List.append_assoc, List.append_assoc, List.drop_left]
    simp [List.append_assoc]
  · rcases hcl : codegen l s with ⟨lv, s1⟩
    rcases hcr : codegen r s1 with ⟨rv, s2⟩
    have h1 : s1 = s ++ emitted l s := by
      have := codegen_state_eq l s; rw [hcl] at this; exact this
    have h2 : s2 = s1 ++ emitted r s1 := by
      have := codegen_state_eq r s1; rw [hcr] at this; exact this
    rw [emitted]
    simp only [codegen, hcl, hcr, irb_fmul]
    rw [h2, h1, List.append_assoc, List.append_assoc, List.drop_left]
    simp [List.append_assoc]

/-- Claim C6 (counterexample): on input `"("` with target set `{'('}`,
the single character is in the target set and is seen while the
running counter is exactly zero (the counter is only incremented upon
processing it), yet the search reports `-1`: parentheses are consumed
by the counter branches of the `elif` chain and are never reported as
found targets. -/
theorem c6_counterexample :
    ("(".data.getD 0 ' ' ∈ (['('] : List Char)) ∧
    pdepth ("(".data.take 0) = 0 ∧
    naked_symbol_search "(".data ['('] = -1 := by
  exact ⟨by decide, by decide, by decide⟩

/-- Claim C6 (amended): for every input string and target set,
`naked_symbol_search` returns the index of the first character that is
neither `(` nor `)`, belongs to the target set, and is seen while the
nesting counter (depth of the preceding prefix) is exactly zero — and
`-1` when no such character exists.  `(` and `)` always act as counter
updates, even when they belong to the target set. -/
theorem c6_naked_symbol_search_characterization (e : Str) (ts : List Char) :
    ((∀ j, j < e.length → nakedAtB e ts j = false) → naked_symbol_search e ts = -1) ∧
    (∀ j, j < e.length → nakedAtB e ts j = true →
      (∀ k, k < j → nakedAtB e ts k = false) →
      naked_symbol_search e ts = (j : ℤ)) := by
  constructor
  · intro h
    apply nss_eq_neg_one
    intro j hj h1 h2 h3
    have hf := h j hj
    simp only [nakedAtB, Bool.and_eq_false_iff, Bool.not_eq_false', decide_eq_true_eq,
      decide_eq_false_iff_not] at hf
    rcases hf with ((hf | hf) | hf) | hf
    · exact absurd hf h1
    · exact absurd hf h2
    · exact absurd (by simpa using h3) hf
    · exact hf
  · intro j hj htrue hbefore
    simp only [nakedAtB, Bool.and_eq_true, Bool.not_eq_true', decide_eq_true_eq,
      decide_eq_false_iff_not] at htrue
    obtain ⟨⟨⟨ht1, ht2⟩, ht3⟩, ht4⟩ := htrue
    apply nss_eq_idx e ts j hj ht1 ht2 (by simpa using ht3) ht4
    intro k hk hk1 hk2 hk3
    have hf := hbefore k hk
    simp only [nakedAtB, Bool.and_eq_false_iff, Bool.not_eq_false', decide_eq_true_eq,
      decide_eq_false_iff_not] at hf
    rcases hf with ((hf | hf) | hf) | hf
    · exact absurd hf hk1
    · exact absurd hf hk2
    · exact absurd (by simpa using hk3) hf
    · exact hf

theorem c6_naked_symbol_search_witness :
    naked_symbol_search "1+2".data ['+'] = 1 :=
  (c6_naked_symbol_search_characterization "1+2".data ['+']).2 1
    (by decide) (by decide) (by decide)

theorem count_update_eq (sym : Char) (c : ℤ) :
    (if sym = '(' then c + 1 else if sym = ')' then c - 1 else c) = c + pstep sym := by
  unfold pstep
  by_cases h1 : sym = '(' <;> by_cases h2 : sym = ')' <;> simp [h1, h2, sub_eq_add_neg]

theorem balance_scan_of_nonneg :
    ∀ (s : Str) (c : ℤ), (∀ k, k ≤ s.length → 0 ≤ c + pdepth (s.take k)) →
      balance_scan s c = c + pdepth s := by
  intro s
  induction s with
  | nil => intro c _; simp [balance_scan, pdepth]
  | cons sym rest ih =>
    intro c h
    have hstep : 0 ≤ c + pstep sym := by
      have := h 1 (by simp)
      rw [List.take_succ_cons, List.take_zero, pdepth_cons, pdepth_nil] at this
      linarith
    unfold balance_scan
    rw [count_update_eq]
    rw [if_neg (by omega : ¬ c + pstep sym < 0)]
    have hrec := ih (c + pstep sym) (by
      intro k hk
      have := h (k + 1) (by simpa using Nat.succ_le_succ hk)
      rw [List.take_succ_cons, pdepth_cons] at this
      linarith)
    rw [hrec, pdepth_cons]
    ring

theorem balance_scan_neg :
    ∀ (s : Str) (c : ℤ), 0 ≤ c → (∃ k, k ≤ s.length ∧ c + pdepth (s.take k) < 0) →
      balance_scan s c < 0 := by
  intro s
  induction s with
  | nil =>
    intro c hc ⟨k, hk, hneg⟩
    have hk0 : k = 0 := Nat.le_zero.mp (by simpa using hk)
    subst hk0
    simp [pdepth] at hneg
    omega
  | cons sym rest ih =>
    intro c hc ⟨k, hk, hneg⟩
    unfold balance_scan
    rw [count_update_eq]
    by_cases hbr : c + pstep sym < 0
    · rw [if_pos hbr]; exact hbr
    · rw [if_neg hbr]
      apply ih (c + pstep sym) (by omega)
      match k with
      | 0 =>
        exfalso
        simp [pdepth] at hneg
        omega
      | k' + 1 =>
        refine ⟨k', by simpa using Nat.le_of_succ_le_succ hk, ?_⟩
        rw [List.take_succ_cons, pdepth_cons] at hneg
        linarith

/-- Claim C3 (amended): the `compiler.py` parenthesized-group matcher
verifies balance across the entire interior: on any nonempty string
whose boundary characters are not actual partners — that is, unless
the first character is `(`, the last is `)`, and the interior is fully
balanced (never dipping negative and ending at zero) — it reports "no
match" without ever parsing an interior.  The `parser.py` variant
checks only the first and last characters and violates the original
claim (`c3_counterexample`). -/
theorem c3_compiler_paren_balance_checked
    (pe : Str → Except PErr Op) (c : Char) (rest : Str)
    (h : ¬ (c = '(' ∧ rest.getLast? = some ')' ∧ balancedStr rest.dropLast)) :
    compiler_Paren_match pe (c :: rest) = .ok none := by
  simp only [compiler_Paren_match]
  by_cases hc : c = '(' ∧ (c :: rest).getLast? = some ')'
  · rw [if_pos hc]
    have hlast : rest.getLast? = some ')' := by
      rcases hc with ⟨hc1, hc2⟩
      cases rest with
      | nil => simp [hc1] at hc2
      | cons x xs => simpa using hc2
    have hnb : ¬ balancedStr rest.dropLast := fun hb => h ⟨hc.1, hlast, hb⟩
    have hscan : balance_scan rest.dropLast 0 ≠ 0 := by
      by_cases hPre : ∀ k, 0 ≤ pdepth (rest.dropLast.take k)
      · have htot : pdepth rest.dropLast ≠ 0 := fun ht => hnb ⟨ht, hPre⟩
        rw [balance_scan_of_nonneg rest.dropLast 0 (by
          intro k _
          simpa using hPre k)]
        simpa using htot
      · push_neg at hPre
        obtain ⟨k, hk⟩ := hPre
        have hneg : balance_scan rest.dropLast 0 < 0 := by
          apply balance_scan_neg rest.dropLast 0 le_rfl
          by_cases hkl : k ≤ rest.dropLast.length
          · exact ⟨k, hkl, by simpa using hk⟩
          · refine ⟨rest.dropLast.length, le_rfl, ?_⟩
            rw [List.take_of_length_le le_rfl]
            rw [List.take_of_length_le (by omega)] at hk
            simpa using hk
        omega
    rw [if_neg hscan]
  · rw [if_neg hc]

theorem c3_compiler_paren_balance_checked_witness :
    compiler_Paren_match compiler_parse "(1+2)*(3+4)".data = .ok none := by
  have h := c3_compiler_paren_balance_checked compiler_parse '(' "1+2)*(3+4)".data
    (fun hh => absurd (hh.2.2.2 4) (by decide))
  exact h

/-- Claim C3 (counterexample): `parser.py`'s `Paren.match` checks only
the first and last characters, so it does treat `"(1+2)*(3+4)"` as a
single parenthesized group: it recursively parses the interior
`1+2)*(3+4` — raising a `ValueError` on the fragment `2)*(3` — instead
of reporting "no match" as the balance-checked `compiler.py` variant
does. -/
theorem c3_counterexample :
    parser_Paren_match parser_parse "(1+2)*(3+4)".data
      = .error (.valueError (errMsg "2)*(3".data)) ∧
    compiler_Paren_match compiler_parse "(1+2)*(3+4)".data = .ok none := by
  exact ⟨by decide, by decide⟩

theorem digitChar_ne_ops (k : ℕ) : digitChar k ≠ '+' ∧ digitChar k ≠ '*' := by
  rcases k with _|_|_|_|_|_|_|_|_|k
  · exact ⟨by decide, by decide⟩
  · exact ⟨by decide, by decide⟩
  · exact ⟨by decide, by decide⟩
  · exact ⟨by decide, by decide⟩
  · exact ⟨by decide, by decide⟩
  · exact ⟨by decide, by decide⟩
  · exact ⟨by decide, by decide⟩
  · exact ⟨by decide, by decide⟩
  · exact ⟨by decide, by decide⟩
  · exact ⟨(by decide : ('9' : Char) ≠ '+'), (by decide : ('9' : Char) ≠ '*')⟩

theorem natDigitsAux_chars : ∀ (fuel n : ℕ) (c : Char),
    c ∈ natDigitsAux fuel n → c ≠ '+' ∧ c ≠ '*' := by
  intro fuel
  induction fuel with
  | zero => intro n c h; simp [natDigitsAux] at h
  | succ fuel ih =>
    intro n c h
    rw [natDigitsAux] at h
    by_cases hn : n = 0
    · simp [hn] at h
    · rw [if_neg hn] at h
      rcases List.mem_append.mp h with h1 | h2
      · exact ih (n / 10) c h1
      · have : c = digitChar (n % 10) := by simpa using h2
        rw [this]; exact digitChar_ne_ops _

theorem natDigits_chars (n : ℕ) (c : Char) :
    c ∈ natDigits n → c ≠ '+' ∧ c ≠ '*' := by
  intro h
  rw [natDigits] at h
  by_cases hn : n = 0
  · rw [if_pos hn] at h
    have : c = '0' := by simpa using h
    rw [this]; exact ⟨by decide, by decide⟩
  · rw [if_neg hn] at h
    exact natDigitsAux_chars _ _ _ h

theorem fracDigits_chars : ∀ (fuel rem d : ℕ) (c : Char),
    c ∈ fracDigits fuel rem d → c ≠ '+' ∧ c ≠ '*' := by
  intro fuel
  induction fuel with
  | zero => intro rem d c h; simp [fracDigits] at h
  | succ fuel ih =>
    intro rem d c h
    rw [fracDigits] at h
    by_cases hr : rem = 0
    · simp [hr] at h
    · rw [if_neg hr] at h
      rcases List.mem_cons.mp h with h1 | h2
      · rw [h1]; exact digitChar_ne_ops _
      · exact ih _ _ _ h2

theorem fracTail_chars (rem d : ℕ) (c : Char) :
    c ∈ fracTail rem d → c ≠ '+' ∧ c ≠ '*' := by
  intro h
  rw [fracTail] at h
  split_ifs at h
  · have : c = '0' := by simpa using h
    rw [this]; exact ⟨by decide, by decide⟩
  · exact fracDigits_chars _ _ _ _ h

theorem floatStr_chars (v : ℚ) (c : Char) :
    c ∈ floatStr v → c ≠ '+' ∧ c ≠ '*' := by
  intro h
  rw [floatStr] at h
  by_cases hneg : v.num < 0
  · rw [if_pos hneg] at h
    simp only [List.mem_append, List.mem_cons, List.not_mem_nil, or_false] at h
    rcases h with (rfl | hn) | rfl | hf
    · exact ⟨by decide, by decide⟩
    · exact natDigits_chars _ _ hn
    · exact ⟨by decide, by decide⟩
    · exact fracTail_chars _ _ _ hf
  · rw [if_neg hneg, List.nil_append] at h
    simp only [List.mem_append, List.mem_cons] at h
    rcases h with hn | rfl | hf
    · exact natDigits_chars _ _ hn
    · exact ⟨by decide, by decide⟩
    · exact fracTail_chars _ _ _ hf

theorem Op_str_no_ops : ∀ (t : Op) (c : Char), c ∈ Op_str t → c ≠ '+' ∧ c ≠ '*' := by
  intro t
  induction t with
  | const v => intro c h; exact floatStr_chars v c h
  | add l r ihl ihr =>
    intro c h
    rw [Op_str] at h
    simp only [List.mem_append, List.mem_cons, List.not_mem_nil, or_false] at h
    rcases h with ((((rfl | rfl | rfl | rfl) | hl) | (rfl | rfl)) | hr) | rfl
    · exact ⟨by decide, by decide⟩
    · exact ⟨by decide, by decide⟩
    · exact ⟨by decide, by decide⟩
    · exact ⟨by decide, by decide⟩
    · exact ihl c hl
    · exact ⟨by decide, by decide⟩
    · exact ⟨by decide, by decide⟩
    · exact ihr c hr
    · exact ⟨by decide, by decide⟩
  | mul l r ihl ihr =>
    intro c h
    rw [Op_str] at h
    simp only [List.mem_append, List.mem_cons, List.not_mem_nil, or_false] at h
    rcases h with ((((rfl | rfl | rfl | rfl) | hl) | (rfl | rfl)) | hr) | rfl
    · exact ⟨by decide, by decide⟩
    · exact ⟨by decide, by decide⟩
    · exact ⟨by decide, by decide⟩
    · exact ⟨by decide, by decide⟩
    · exact ihl c hl
    · exact ⟨by decide, by decide⟩
    · exact ⟨by decide, by decide⟩
    · exact ihr c hr
    · exact ⟨by decide, by decide⟩

theorem Add_match_none (pe : Str → Except PErr Op) (e : Str)
    (h : naked_symbol_search e ['+'] = -1) : Add_match pe e = .ok none := by
  simp [Add_match, h]

theorem Mul_match_none (pe : Str → Except PErr Op) (e : Str)
    (h : naked_symbol_search e ['*'] = -1) : Mul_match pe e = .ok none := by
  simp [Mul_match, h]

theorem parser_Paren_match_head (pe : Str → Except PErr Op) (c : Char) (rest : Str)
    (h : c ≠ '(') : parser_Paren_match pe (c :: rest) = .ok none := by
  simp [parser_Paren_match, h]

theorem compiler_Paren_match_head (pe : Str → Except PErr Op) (c : Char) (rest : Str)
    (h : c ≠ '(') : compiler_Paren_match pe (c :: rest) = .ok none := by
  simp [compiler_Paren_match, h]

theorem pyFloat_head_A (rest : Str) : pyFloat ('A' :: rest) = none := rfl

theorem pyFloat_head_M (rest : Str) : pyFloat ('M' :: rest) = none := rfl

/-- Claim C8 (amended): re-parsing the pretty-printed (`str`) form of a
tree whose root is an `Add` or `Mul` node always fails: the printed
form (`Add(<l>, <r>)` or `Mul(<l>, <r>)`) contains no `+` or `*`
character, does not start with `(`, and is no float literal, so no
variant matches and `parse_expr` raises `ValueError`.  Consequently
re-parsing the printed form can reproduce the tree only for
single-`Constant` trees, and the original round-trip claim fails for
every tree of a valid expression containing an operator
(`c8_counterexample`). -/
theorem c8_reparse_printed_operator_tree_fails (t : Op)
    (h : (∃ l r, t = .add l r) ∨ (∃ l r, t = .mul l r)) :
    parser_parse (Op_str t) = .error (.valueError (errMsg (Op_str t))) := by
  have hplus : naked_symbol_search (Op_str t) ['+'] = -1 :=
    nss_single_none _ _ (NNaked_of_not_mem _ _
      (fun hmem => (Op_str_no_ops t '+' hmem).1 rfl))
  have hstar : naked_symbol_search (Op_str t) ['*'] = -1 :=
    nss_single_none _ _ (NNaked_of_not_mem _ _
      (fun hmem => (Op_str_no_ops t '*' hmem).2 rfl))
  show parse_expr_core parser_Paren_match ((Op_str t).length + 1) (Op_str t) = _
  obtain ⟨l, r, rfl⟩ | ⟨l, r, rfl⟩ := h
  · have hshape : Op_str (.add l r)
        = 'A' :: ("dd(".data ++ Op_str l ++ ", ".data ++ Op_str r ++ ")".data) := rfl
    rw [parse_expr_core_eval _ _ _ none none none
      (Add_match_none _ _ hplus) (Mul_match_none _ _ hstar)
      (by rw [hshape]; exact parser_Paren_match_head _ _ _ (by decide))]
    have hc : Constant_match (Op_str (.add l r)) = none := by
      rw [Constant_match, hshape, pyFloat_head_A]
      rfl
    rw [hc]
    rfl
  · have hshape : Op_str (.mul l r)
        = 'M' :: ("ul(".data ++ Op_str l ++ ", ".data ++ Op_str r ++ ")".data) := rfl
    rw [parse_expr_core_eval _ _ _ none none none
      (Add_match_none _ _ hplus) (Mul_match_none _ _ hstar)
      (by rw [hshape]; exact parser_Paren_match_head _ _ _ (by decide))]
    have hc : Constant_match (Op_str (.mul l r)) = none := by
      rw [Constant_match, hshape, pyFloat_head_M]
      rfl
    rw [hc]
    rfl

theorem c8_reparse_printed_operator_tree_fails_witness :
    parser_parse (Op_str (.add (.const 1) (.const 2)))
      = .error (.valueError (errMsg (Op_str (.add (.const 1) (.const 2))))) :=
  c8_reparse_printed_operator_tree_fails (.add (.const 1) (.const 2))
    (Or.inl ⟨.const 1, .const 2, rfl⟩)

/-- Claim C8 (counterexample): the tree parsed from `"1+2"` pretty
prints as `Add(1.0, 2.0)`, and re-parsing that printed form does not
yield the tree back — it raises `ValueError`, since the printed form
is not an arithmetic expression. -/
theorem c8_counterexample :
    parser_parse "1+2".data = .ok (.add (.const 1) (.const 2)) ∧
    Op_str (.add (.const 1) (.const 2)) = "Add(1.0, 2.0)".data ∧
    parser_parse "Add(1.0, 2.0)".data
      = .error (.valueError (errMsg "Add(1.0, 2.0)".data)) := by
  exact ⟨by decide, by decide, by decide⟩

theorem except_bind_ok {α β : Type} (a : α) (f : α → Except PErr β) :
    (Except.ok a : Except PErr α) >>= f = f a := rfl

theorem except_bind_err {α β : Type} (er : PErr) (f : α → Except PErr β) :
    (Except.error er : Except PErr α) >>= f = Except.error er := rfl

theorem nss_from_mem (ts : List Char) :
    ∀ (e : Str) (i0 : ℕ) (c0 : ℤ),
      naked_symbol_search_from ts e i0 c0 ≠ -1 →
      ∃ j : ℕ, naked_symbol_search_from ts e i0 c0 = (i0 : ℤ) + (j : ℤ) ∧ j < e.length ∧
        e.getD j ' ' ∈ ts ∧ e.getD j ' ' ≠ '(' ∧ e.getD j ' ' ≠ ')' := by
  intro e
  induction e with
  | nil => intro i0 c0 h; exact absurd rfl h
  | cons sym rest ih =>
    intro i0 c0 h
    rw [naked_symbol_search_from] at h ⊢
    by_cases h1 : sym = '('
    · rw [if_pos h1] at h ⊢
      obtain ⟨j, hj, hlt, hmem, hn1, hn2⟩ := ih (i0 + 1) (c0 + 1) h
      refine ⟨j + 1, ?_, by simpa using Nat.succ_lt_succ hlt, by simpa using hmem,
        by simpa using hn1, by simpa using hn2⟩
      rw [hj]; push_cast; ring
    · rw [if_neg h1] at h ⊢
      by_cases h2 : sym = ')'
      · rw [if_pos h2] at h ⊢
        obtain ⟨j, hj, hlt, hmem, hn1, hn2⟩ := ih (i0 + 1) (c0 - 1) h
        refine ⟨j + 1, ?_, by simpa using Nat.succ_lt_succ hlt, by simpa using hmem,
          by simpa using hn1, by simpa using hn2⟩
        rw [hj]; push_cast; ring
      · rw [if_neg h2] at h ⊢
        by_cases h3 : sym ∈ ts ∧ c0 = 0
        · rw [if_pos h3] at h ⊢
          exact ⟨0, by simp, by simp, by simpa using h3.1, by simpa using h1,
            by simpa using h2⟩
        · rw [if_neg h3] at h ⊢
          obtain ⟨j, hj, hlt, hmem, hn1, hn2⟩ := ih (i0 + 1) c0 h
          refine ⟨j + 1, ?_, by simpa using Nat.succ_lt_succ hlt, by simpa using hmem,
            by simpa using hn1, by simpa using hn2⟩
          rw [hj]; push_cast; ring

theorem nss_mem (e : Str) (ts : List Char)
    (h : naked_symbol_search e ts ≠ -1) :
    ∃ j : ℕ, naked_symbol_search e ts = (j : ℤ) ∧ j < e.length ∧
      e.getD j ' ' ∈ ts ∧ e.getD j ' ' ≠ '(' ∧ e.getD j ' ' ≠ ')' := by
  obtain ⟨j, hj, hlt, hmem, hn1, hn2⟩ := nss_from_mem ts e 0 0 h
  exact ⟨j, by simpa using hj, hlt, hmem, hn1, hn2⟩

theorem split_at_getD (e : Str) (j : ℕ) (h : j < e.length) :
    e = e.take j ++ e.getD j ' ' :: e.drop (j + 1) := by
  conv_lhs => rw [← List.take_append_drop j e]
  congr 1
  rw [List.drop_eq_getElem_cons h]
  congr 1
  rw [List.getD_eq_getElem?_getD, List.getElem?_eq_getElem h]
  rfl

theorem Add_match_ok_some (pe : Str → Except PErr Op) (e : Str) (a : Op)
    (h : Add_match pe e = .ok (some a)) :
    ∃ j l r, j < e.length ∧ e.getD j ' ' = '+' ∧
      pe (e.take j) = .ok l ∧ pe (e.drop (j + 1)) = .ok r ∧ a = .add l r := by
  unfold Add_match at h
  by_cases hidx : naked_symbol_search e ['+'] = -1
  · simp [hidx] at h
  · rw [if_neg hidx] at h
    obtain ⟨j, hj, hlt, hmem, _, _⟩ := nss_mem e ['+'] hidx
    have htn : (naked_symbol_search e ['+']).toNat = j := by rw [hj]; simp
    rw [htn] at h
    cases hl : pe (e.take j) with
    | error el => rw [hl, except_bind_err] at h; simp at h
    | ok l =>
      cases hr : pe (e.drop (j + 1)) with
      | error er => rw [hl, except_bind_ok, hr, except_bind_err] at h; simp at h
      | ok r =>
        rw [hl, except_bind_ok, hr, except_bind_ok] at h
        simp only [Except.ok.injEq, Option.some.injEq] at h
        exact ⟨j, l, r, hlt, by simpa using hmem, hl, hr, h.symm⟩

theorem Mul_match_ok_some (pe : Str → Except PErr Op) (e : Str) (a : Op)
    (h : Mul_match pe e = .ok (some a)) :
    ∃ j l r, j < e.length ∧ e.getD j ' ' = '*' ∧
      pe (e.take j) = .ok l ∧ pe (e.drop (j + 1)) = .ok r ∧ a = .mul l r := by
  unfold Mul_match at h
  by_cases hidx : naked_symbol_search e ['*'] = -1
  · simp [hidx] at h
  · rw [if_neg hidx] at h
    obtain ⟨j, hj, hlt, hmem, _, _⟩ := nss_mem e ['*'] hidx
    have htn : (naked_symbol_search e ['*']).toNat = j := by rw [hj]; simp
    rw [htn] at h
    cases hl : pe (e.take j) with
    | error el => rw [hl, except_bind_err] at h; simp at h
    | ok l =>
      cases hr : pe (e.drop (j + 1)) with
      | error er => rw [hl, except_bind_ok, hr, except_bind_err] at h; simp at h
      | ok r =>
        rw [hl, except_bind_ok, hr, except_bind_ok] at h
        simp only [Except.ok.injEq, Option.some.injEq] at h
        exact ⟨j, l, r, hlt, by simpa using hmem, hl, hr, h.symm⟩

theorem parser_Paren_match_ok_some (pe : Str → Except PErr Op) (e : Str) (op : Op)
    (h : parser_Paren_match pe e = .ok (some op)) :
    ∃ inner, e = '(' :: inner ++ [')'] ∧ pe inner = .ok op := by
  match e with
  | [] => simp [parser_Paren_match] at h
  | c :: rest =>
    simp only [parser_Paren_match] at h
    by_cases hc : c = '(' ∧ (c :: rest).getLast? = some ')'
    · rw [if_pos hc] at h
      cases hi : pe rest.dropLast with
      | error ei => rw [hi, except_bind_err] at h; simp at h
      | ok inner =>
        rw [hi, except_bind_ok] at h
        simp only [Except.ok.injEq, Option.some.injEq] at h
        refine ⟨rest.dropLast, ?_, by rw [hi, h]⟩
        obtain ⟨hc1, hc2⟩ := hc
        have hrne : rest ≠ [] := by
          intro hr; rw [hr, hc1] at hc2; simp at hc2
        have hlast : rest.getLast? = some ')' := by
          cases rest with
          | nil => exact absurd rfl hrne
          | cons x xs => simpa using hc2
        have : rest.dropLast ++ [')'] = rest := by
          have hgl : rest.getLast hrne = ')' := by
            rw [List.getLast?_eq_getLast rest hrne] at hlast
            simpa using hlast
          rw [← hgl]
          exact List.dropLast_concat_getLast hrne
        rw [hc1, List.cons_append, this]
    · rw [if_neg hc] at h; simp at h

theorem compiler_Paren_match_ok_some (pe : Str → Except PErr Op) (e : Str) (op : Op)
    (h : compiler_Paren_match pe e = .ok (some op)) :
    ∃ inner, e = '(' :: inner ++ [')'] ∧ pe inner = .ok op := by
  match e with
  | [] => simp [compiler_Paren_match] at h
  | c :: rest =>
    simp only [compiler_Paren_match] at h
    by_cases hc : c = '(' ∧ (c :: rest).getLast? = some ')'
    · rw [if_pos hc] at h
      by_cases hb : balance_scan rest.dropLast 0 = 0
      · rw [if_pos hb] at h
        cases hi : pe rest.dropLast with
        | error ei => rw [hi, except_bind_err] at h; simp at h
        | ok inner =>
          rw [hi, except_bind_ok] at h
          simp only [Except.ok.injEq, Option.some.injEq] at h
          refine ⟨rest.dropLast, ?_, by rw [hi, h]⟩
          obtain ⟨hc1, hc2⟩ := hc
          have hrne : rest ≠ [] := by
            intro hr; rw [hr, hc1] at hc2; simp at hc2
          have hlast : rest.getLast? = some ')' := by
            cases rest with
            | nil => exact absurd rfl hrne
            | cons x xs => simpa using hc2
          have : rest.dropLast ++ [')'] = rest := by
            have hgl : rest.getLast hrne = ')' := by
              rw [List.getLast?_eq_getLast rest hrne] at hlast
              simpa using hlast
            rw [← hgl]
            exact List.dropLast_concat_getLast hrne
          rw [hc1, List.cons_append, this]
      · rw [if_neg hb] at h; simp at h
    · rw [if_neg hc] at h; simp at h

theorem parse_expr_core_add_err
    (paren : (Str → Except PErr Op) → Str → Except PErr (Option Op))
    (fuel : ℕ) (e : Str) (er : PErr)
    (hA : Add_match (parse_expr_core paren fuel) e = .error er) :
    parse_expr_core paren (fuel + 1) e = .error er := by
  rw [parse_expr_core, hA, except_bind_err]

theorem parse_expr_core_mul_err
    (paren : (Str → Except PErr Op) → Str → Except PErr (Option Op))
    (fuel : ℕ) (e : Str) (ao : Option Op) (er : PErr)
    (hA : Add_match (parse_expr_core paren fuel) e = .ok ao)
    (hM : Mul_match (parse_expr_core paren fuel) e = .error er) :
    parse_expr_core paren (fuel + 1) e = .error er := by
  rw [parse_expr_core, hA, except_bind_ok, hM, except_bind_err]

theorem parse_expr_core_paren_err
    (paren : (Str → Except PErr Op) → Str → Except PErr (Option Op))
    (fuel : ℕ) (e : Str) (ao mo : Option Op) (er : PErr)
    (hA : Add_match (parse_expr_core paren fuel) e = .ok ao)
    (hM : Mul_match (parse_expr_core paren fuel) e = .ok mo)
    (hP : paren (parse_expr_core paren fuel) e = .error er) :
    parse_expr_core paren (fuel + 1) e = .error er := by
  rw [parse_expr_core, hA, except_bind_ok, hM, except_bind_ok, hP, except_bind_err]

theorem parse_covers_aux
    (paren : (Str → Except PErr Op) → Str → Except PErr (Option Op))
    (hparen : ∀ (pe : Str → Except PErr Op) (e : Str) (op : Op),
      paren pe e = .ok (some op) →
      ∃ inner, e = '(' :: inner ++ [')'] ∧ pe inner = .ok op) :
    ∀ (fuel : ℕ) (e : Str) (op : Op),
      parse_expr_core paren fuel e = .ok op → ExactCovers op e ∧ e ≠ [] := by
  intro fuel
  induction fuel with
  | zero => intro e op h; simp [parse_expr_core] at h
  | succ fuel ih =>
    intro e op h
    cases hA : Add_match (parse_expr_core paren fuel) e with
    | error ea => rw [parse_expr_core_add_err paren fuel e ea hA] at h; simp at h
    | ok ao =>
    cases hM : Mul_match (parse_expr_core paren fuel) e with
    | error em => rw [parse_expr_core_mul_err paren fuel e ao em hA hM] at h; simp at h
    | ok mo =>
    cases hP : paren (parse_expr_core paren fuel) e with
    | error ep => rw [parse_expr_core_paren_err paren fuel e ao mo ep hA hM hP] at h; simp at h
    | ok po =>
    rw [parse_expr_core_eval paren fuel e ao mo po hA hM hP] at h
    cases ao with
    | some a =>
      simp only [Option.some_orElse] at h
      have ha : a = op := by simpa using h
      subst ha
      obtain ⟨j, l, r, hjlt, hjc, hl, hr, rfl⟩ :=
        Add_match_ok_some (parse_expr_core paren fuel) e a hA
      have hsplit := split_at_getD e j hjlt
      rw [hjc] at hsplit
      refine ⟨?_, ?_⟩
      · rw [hsplit]
        exact ExactCovers.add l r _ _ (ih _ _ hl).1 (ih _ _ hr).1
      · rw [hsplit]; simp
    | none =>
    cases mo with
    | some m =>
      simp only [Option.none_orElse, Option.some_orElse] at h
      have hm : m = op := by simpa using h
      subst hm
      obtain ⟨j, l, r, hjlt, hjc, hl, hr, rfl⟩ :=
        Mul_match_ok_some (parse_expr_core paren fuel) e m hM
      have hsplit := split_at_getD e j hjlt
      rw [hjc] at hsplit
      refine ⟨?_, ?_⟩
      · rw [hsplit]
        exact ExactCovers.mul l r _ _ (ih _ _ hl).1 (ih _ _ hr).1
      · rw [hsplit]; simp
    | none =>
    cases po with
    | some p =>
      simp only [Option.none_orElse, Option.some_orElse] at h
      have hp : p = op := by simpa using h
      subst hp
      obtain ⟨inner, hshape, hinner⟩ :=
        hparen (parse_expr_core paren fuel) e p hP
      refine ⟨?_, ?_⟩
      · rw [hshape]
        exact ExactCovers.paren p inner (ih _ _ hinner).1
      · rw [hshape]; simp
    | none =>
    cases hco : Constant_match e with
    | some c0 =>
      rw [hco] at h
      simp only [Option.none_orElse, Option.some_orElse] at h
      have hc : c0 = op := by simpa using h
      subst hc
      obtain ⟨v, hv, rfl⟩ : ∃ v, pyFloat e = some v ∧ c0 = .const v := by
        unfold Constant_match at hco
        cases hpf : pyFloat e with
        | none => rw [hpf] at hco; simp at hco
        | some v =>
          rw [hpf] at hco
          simp only [Option.map_some', Option.some.injEq] at hco
          exact ⟨v, rfl, hco.symm⟩
      refine ⟨ExactCovers.const v e hv, ?_⟩
      intro hne
      rw [hne] at hv
      simp [show pyFloat [] = none from rfl] at hv
    | none =>
      rw [hco] at h
      simp at h

/-- Claim C7: in both `parser.py` and `compiler.py`, every AST produced
by a successful `parse_expr` decomposes the parsed string completely
and contiguously — each `Add`/`Mul` node consumes its operator
character and hands the two adjacent pieces to its children, each
parenthesized group consumes both boundary parentheses, and each
`Constant` leaf consumes exactly a (nonempty) `float` literal — with no
characters left over or missing, and the covered string is never
empty. -/
theorem c7_parse_full_consumption (fuel : ℕ) (e : Str) (op : Op) :
    (parser_parse_expr fuel e = .ok op → ExactCovers op e ∧ e ≠ []) ∧
    (compiler_parse_expr fuel e = .ok op → ExactCovers op e ∧ e ≠ []) :=
  ⟨fun h => parse_covers_aux parser_Paren_match parser_Paren_match_ok_some fuel e op h,
   fun h => parse_covers_aux compiler_Paren_match compiler_Paren_match_ok_some fuel e op h⟩

theorem c7_parse_full_consumption_witness :
    ExactCovers (.add (.const 1) (.const 2)) "1+2".data ∧ "1+2".data ≠ ([] : Str) :=
  (c7_parse_full_consumption 4 "1+2".data (.add (.const 1) (.const 2))).1 (by decide)

theorem span_digits (ds rest : Str) (hds : ∀ c ∈ ds, isDigitChar c = true)
    (hrest : rest = [] ∨ isDigitChar (rest.headD ' ') = false) :
    (ds ++ rest).takeWhile isDigitChar = ds ∧
      (ds ++ rest).dropWhile isDigitChar = rest := by
  induction ds with
  | nil =>
    simp only [List.nil_append]
    rcases hrest with rfl | hr
    · simp
    · cases rest with
      | nil => simp
      | cons r t =>
        simp only [List.headD_cons] at hr
        exact ⟨by simp [List.takeWhile_cons, hr], by simp [List.dropWhile_cons, hr]⟩
  | cons d ds ih =>
    have hd : isDigitChar d = true := hds d (by simp)
    have ih' := ih (fun c hc => hds c (by simp [hc]))
    constructor
    · simp only [List.cons_append, List.takeWhile_cons, hd, if_true, ih'.1]
    · simp only [List.cons_append, List.dropWhile_cons, hd, if_true, ih'.2]

theorem digit_char_facts (c : Char) (h : isDigitChar c = true) :
    c ≠ '-' ∧ c ≠ '+' ∧ c ≠ '.' ∧ c ≠ '(' ∧ c ≠ ')' ∧ c ≠ '*' ∧ c ≠ 'e' ∧ c ≠ 'E' := by
  refine ⟨fun hc => ?_, fun hc => ?_, fun hc => ?_, fun hc => ?_, fun hc => ?_,
    fun hc => ?_, fun hc => ?_, fun hc => ?_⟩ <;> subst hc <;> exact absurd h (by decide)

theorem renderA_num_chars (ip : Str) (fp : Option Str) (h : wfA (.num ip fp) = true) :
    ∀ c ∈ renderA (.num ip fp), isDigitChar c = true ∨ c = '.' := by
  intro c hc
  cases fp with
  | none =>
    simp only [wfA, Bool.and_eq_true, List.all_eq_true] at h
    simp only [renderA, List.append_nil] at hc
    exact Or.inl (by simpa using h.1 c hc)
  | some f =>
    simp only [wfA, Bool.and_eq_true, List.all_eq_true] at h
    simp only [renderA, List.mem_append, List.mem_cons] at hc
    rcases hc with hc | rfl | hc
    · exact Or.inl (by simpa using h.1 c hc)
    · exact Or.inr rfl
    · exact Or.inl (by simpa using h.2.1 c hc)

theorem pstep_zero_of_digit_or_dot (c : Char) (h : isDigitChar c = true ∨ c = '.') :
    pstep c = 0 := by
  rcases h with h | rfl
  · obtain ⟨_, _, _, h4, h5, _, _, _⟩ := digit_char_facts c h
    simp [pstep, h4, h5]
  · decide

theorem pdepth_zero_of_pstep_zero (e : Str) (h : ∀ c ∈ e, pstep c = 0) :
    pdepth e = 0 := by
  rw [pdepth]
  apply List.sum_eq_zero
  intro x hx
  obtain ⟨c, hc, rfl⟩ := List.mem_map.mp hx
  exact h c hc

theorem pdepth_take_zero_of_pstep_zero (e : Str) (h : ∀ c ∈ e, pstep c = 0) (k : ℕ) :
    pdepth (e.take k) = 0 :=
  pdepth_zero_of_pstep_zero _ (fun c hc => h c (List.take_subset _ _ hc))

theorem NNaked_of_chars (c : Char) (e : Str)
    (h : ∀ d ∈ e, isDigitChar d = true ∨ d = '.') (hc : c ≠ '.') (hc2 : isDigitChar c = false) :
    NNaked c e := by
  apply NNaked_of_not_mem
  intro hmem
  rcases h c hmem with hd | hd
  · rw [hd] at hc2; exact absurd hc2 (by decide)
  · exact hc hd

theorem pyFloat_of_not_sign (s : Str) (h1 : s.headD ' ' ≠ '-') (h2 : s.headD ' ' ≠ '+') :
    pyFloat s = pyMantissa 1 s := by
  unfold pyFloat
  rw [if_neg h1, if_neg h2]

theorem pyMantissa_digits (sgn : ℤ) (ds : Str) (hne : ds ≠ [])
    (hall : ∀ c ∈ ds, isDigitChar c = true) :
    pyMantissa sgn ds = some (floatVal sgn ds [] 0) := by
  have hsp := span_digits ds [] hall (Or.inl rfl)
  rw [List.append_nil] at hsp
  simp only [pyMantissa]
  rw [hsp.1, hsp.2]
  simp [hne]

theorem pyMantissa_digits_dot (sgn : ℤ) (ip f : Str)
    (hip : ∀ c ∈ ip, isDigitChar c = true) (hf : ∀ c ∈ f, isDigitChar c = true)
    (hne : ¬ (ip = [] ∧ f = [])) :
    pyMantissa sgn (ip ++ '.' :: f) = some (floatVal sgn ip f 0) := by
  have hsp := span_digits ip ('.' :: f) hip
    (Or.inr (by rw [List.headD_cons]; decide))
  have hfsp := span_digits f [] hf (Or.inl rfl)
  rw [List.append_nil] at hfsp
  simp only [pyMantissa]
  rw [hsp.1, hsp.2]
  rw [if_neg (by simp : ¬ ('.' :: f) = [])]
  rw [show ('.' :: f).headD ' ' = '.' from rfl, if_pos rfl]
  rw [show ('.' :: f).tail = f from rfl]
  rw [hfsp.1, hfsp.2]
  rw [if_neg hne]
  simp [expCheck]

theorem pyFloat_renderA_num (ip : Str) (fp : Option Str) (h : wfA (.num ip fp) = true) :
    pyFloat (renderA (.num ip fp)) = some (numValQ ip fp) := by
  cases fp with
  | none =>
    simp only [wfA, Bool.and_eq_true, List.all_eq_true] at h
    obtain ⟨hall, hne⟩ := h
    have hipne : ip ≠ [] := by
      intro hc; rw [hc] at hne; simp at hne
    obtain ⟨c, t, rfl⟩ : ∃ c t, ip = c :: t := by
      cases ip with
      | nil => exact absurd rfl hipne
      | cons c t => exact ⟨c, t, rfl⟩
    have hcd : isDigitChar c = true := by simpa using hall c (by simp)
    obtain ⟨f1, f2, _, _, _, _, _, _⟩ := digit_char_facts c hcd
    simp only [renderA, List.append_nil]
    rw [pyFloat_of_not_sign _ (by simpa using f1) (by simpa using f2)]
    rw [pyMantissa_digits 1 _ hipne (fun d hd => by simpa using hall d hd)]
    rfl
  | some f =>
    simp only [wfA, Bool.and_eq_true, List.all_eq_true] at h
    obtain ⟨hip, hf, hne⟩ := h
    have hfall : ∀ c ∈ f, isDigitChar c = true := fun d hd => by simpa using hf d hd
    have hiall : ∀ c ∈ ip, isDigitChar c = true := fun d hd => by simpa using hip d hd
    have hcond : ¬ (ip = [] ∧ f = []) := by
      intro ⟨h1, h2⟩
      rw [h1, h2] at hne
      simp at hne
    cases hipc : ip with
    | nil =>
      subst hipc
      simp only [renderA, List.nil_append]
      rw [pyFloat_of_not_sign ('.' :: f) (by rw [List.headD_cons]; decide)
        (by rw [List.headD_cons]; decide)]
      rw [show ('.' :: f) = ([] : Str) ++ '.' :: f from rfl]
      rw [pyMantissa_digits_dot 1 [] f hiall hfall hcond]
      rfl
    | cons c t =>
      subst hipc
      have hcd : isDigitChar c = true := by simpa using hip c (by simp)
      obtain ⟨f1, f2, _, _, _, _, _, _⟩ := digit_char_facts c hcd
      simp only [renderA]
      rw [pyFloat_of_not_sign _ (by simpa using f1) (by simpa using f2)]
      rw [pyMantissa_digits_dot 1 (c :: t) f hiall hfall hcond]
      rfl

theorem balanced_concat (A B : Str) (d : Char)
    (hA0 : pdepth A = 0) (hApre : ∀ k, 0 ≤ pdepth (A.take k))
    (hd : pstep d = 0)
    (hB0 : pdepth B = 0) (hBpre : ∀ k, 0 ≤ pdepth (B.take k)) :
    pdepth (A ++ d :: B) = 0 ∧ ∀ k, 0 ≤ pdepth ((A ++ d :: B).take k) := by
  constructor
  · rw [pdepth_append, pdepth_cons, hA0, hd, hB0]; ring
  · intro k
    by_cases hk : k ≤ A.length
    · rw [take_append_left _ _ _ hk]; exact hApre k
    · obtain ⟨k', rfl⟩ : ∃ k', k = A.length + 1 + k' := ⟨k - A.length - 1, by omega⟩
      rw [pdepth_take_append_cons, hA0, hd]
      have := hBpre k'
      linarith

theorem balanced_paren_wrap (X : Str)
    (h0 : pdepth X = 0) (hpre : ∀ k, 0 ≤ pdepth (X.take k)) :
    pdepth ('(' :: X ++ [')']) = 0 ∧ ∀ k, 0 ≤ pdepth (('(' :: X ++ [')']).take k) := by
  have e1 : pstep '(' = 1 := by decide
  have e2 : pdepth [')'] = -1 := by decide
  constructor
  · rw [List.cons_append, pdepth_cons, pdepth_append, h0, e1, e2]; ring
  · intro k
    match k with
    | 0 => simp [pdepth]
    | k + 1 =>
      rw [List.cons_append, List.take_succ_cons, pdepth_cons, e1]
      by_cases hk : k ≤ X.length
      · rw [take_append_left _ _ _ hk]
        have := hpre k
        linarith
      · rw [List.take_of_length_le (by simp; omega), pdepth_append, h0, e2]
        linarith

theorem sizeS_pos (s : SumE) : 1 ≤ sizeS s := by
  cases s <;> simp [sizeS]

theorem sizeP_pos (p : ProdE) : 1 ≤ sizeP p := by
  cases p <;> simp [sizeP]

theorem sizeA_pos (a : AtomE) : 1 ≤ sizeA a := by
  cases a <;> simp [sizeA]

theorem render_facts : ∀ n : ℕ,
    (∀ s : SumE, sizeS s ≤ n → wfS s = true →
      renderS s ≠ [] ∧ pdepth (renderS s) = 0 ∧ ∀ k, 0 ≤ pdepth ((renderS s).take k)) ∧
    (∀ p : ProdE, sizeP p ≤ n → wfP p = true →
      renderP p ≠ [] ∧ pdepth (renderP p) = 0 ∧ (∀ k, 0 ≤ pdepth ((renderP p).take k)) ∧
        NNaked '+' (renderP p)) ∧
    (∀ a : AtomE, sizeA a ≤ n → wfA a = true →
      renderA a ≠ [] ∧ pdepth (renderA a) = 0 ∧ (∀ k, 0 ≤ pdepth ((renderA a).take k)) ∧
        NNaked '+' (renderA a) ∧ NNaked '*' (renderA a)) := by
  intro n
  induction n using Nat.strong_induction_on with
  | _ n ih =>
    refine ⟨?_, ?_, ?_⟩
    · intro s hsz hwf
      cases s with
      | single p =>
        simp only [sizeS] at hsz
        have hn : n - 1 < n := by omega
        have hf := ((ih (n - 1) hn).2.1) p (by omega) (by simpa [wfS] using hwf)
        exact ⟨hf.1, hf.2.1, hf.2.2.1⟩
      | plus p rest =>
        simp only [sizeS] at hsz
        have hr1 := sizeS_pos rest
        have hp1 := sizeP_pos p
        have hn : n - 1 < n := by omega
        simp only [wfS, Bool.and_eq_true] at hwf
        have hP := ((ih (n - 1) hn).2.1) p (by omega) hwf.1
        have hR := ((ih (n - 1) hn).1) rest (by omega) hwf.2
        have hbal := balanced_concat (renderP p) (renderS rest) '+'
          hP.2.1 hP.2.2.1 (by decide) hR.2.1 hR.2.2
        exact ⟨by simp [renderS, hP.1], hbal.1, hbal.2⟩
    · intro p hsz hwf
      cases p with
      | single a =>
        simp only [sizeP] at hsz
        have hn : n - 1 < n := by omega
        have hf := ((ih (n - 1) hn).2.2) a (by omega) (by simpa [wfP] using hwf)
        exact ⟨hf.1, hf.2.1, hf.2.2.1, hf.2.2.2.1⟩
      | times a p' =>
        simp only [sizeP] at hsz
        have ha1 := sizeA_pos a
        have hp1 := sizeP_pos p'
        have hn : n - 1 < n := by omega
        simp only [wfP, Bool.and_eq_true] at hwf
        have hA := ((ih (n - 1) hn).2.2) a (by omega) hwf.1
        have hP := ((ih (n - 1) hn).2.1) p' (by omega) hwf.2
        have hbal := balanced_concat (renderA a) (renderP p') '*'
          hA.2.1 hA.2.2.1 (by decide) hP.2.1 hP.2.2.1
        refine ⟨by simp [renderP, hA.1], hbal.1, hbal.2, ?_⟩
        exact NNaked_append '+' (renderA a) (renderP p') '*'
          hA.2.2.2.1 hA.2.1 (by decide) (by decide) hP.2.2.2
    · intro a hsz hwf
      cases a with
      | num ip fp =>
        have hchars := renderA_num_chars ip fp hwf
        have hstep : ∀ c ∈ renderA (.num ip fp), pstep c = 0 :=
          fun c hc => pstep_zero_of_digit_or_dot c (hchars c hc)
        have hne : renderA (.num ip fp) ≠ [] := by
          cases fp with
          | none =>
            simp only [wfA, Bool.and_eq_true] at hwf
            have : ip ≠ [] := by
              intro hc; rw [hc] at hwf; simp at hwf
            simpa [renderA] using this
          | some f => simp [renderA]
        refine ⟨hne, pdepth_zero_of_pstep_zero _ hstep, ?_, ?_, ?_⟩
        · intro k; rw [pdepth_take_zero_of_pstep_zero _ hstep k]
        · exact NNaked_of_chars '+' _ hchars (by decide) (by decide)
        · exact NNaked_of_chars '*' _ hchars (by decide) (by decide)
      | paren s' =>
        simp only [sizeA] at hsz
        have hn : n - 1 < n := by omega
        have hS := ((ih (n - 1) hn).1) s' (by omega) (by simpa [wfA] using hwf)
        have hbal := balanced_paren_wrap (renderS s') hS.2.1 hS.2.2
        refine ⟨by simp [renderA], hbal.1, hbal.2, ?_, ?_⟩
        · exact NNaked_paren '+' (renderS s') (by decide) (by decide) hS.2.2
        · exact NNaked_paren '*' (renderS s') (by decide) (by decide) hS.2.2

theorem Add_match_split (pe : Str → Except PErr Op) (A B : Str) (l r : Op)
    (hA : NNaked '+' A) (hd : pdepth A = 0)
    (hl : pe A = .ok l) (hr : pe B = .ok r) :
    Add_match pe (A ++ '+' :: B) = .ok (some (.add l r)) := by
  have hidx := nss_single_at A B '+' hA hd (by decide) (by decide)
  have htake : (A ++ '+' :: B).take A.length = A := List.take_left A ('+' :: B)
  have hdrop : (A ++ '+' :: B).drop (A.length + 1) = B := by
    rw [show A ++ '+' :: B = (A ++ ['+']) ++ B by simp]
    exact List.drop_left' (by simp)
  unfold Add_match
  rw [hidx, if_neg (by omega : ¬ (A.length : ℤ) = -1)]
  rw [show ((A.length : ℤ)).toNat = A.length from by simp]
  rw [htake, hdrop, hl, except_bind_ok, hr, except_bind_ok]

theorem Mul_match_split (pe : Str → Except PErr Op) (A B : Str) (l r : Op)
    (hA : NNaked '*' A) (hd : pdepth A = 0)
    (hl : pe A = .ok l) (hr : pe B = .ok r) :
    Mul_match pe (A ++ '*' :: B) = .ok (some (.mul l r)) := by
  have hidx := nss_single_at A B '*' hA hd (by decide) (by decide)
  have htake : (A ++ '*' :: B).take A.length = A := List.take_left A ('*' :: B)
  have hdrop : (A ++ '*' :: B).drop (A.length + 1) = B := by
    rw [show A ++ '*' :: B = (A ++ ['*']) ++ B by simp]
    exact List.drop_left' (by simp)
  unfold Mul_match
  rw [hidx, if_neg (by omega : ¬ (A.length : ℤ) = -1)]
  rw [show ((A.length : ℤ)).toNat = A.length from by simp]
  rw [htake, hdrop, hl, except_bind_ok, hr, except_bind_ok]

theorem compiler_Paren_match_wrap (pe : Str → Except PErr Op) (X : Str) (op : Op)
    (h0 : pdepth X = 0) (hpre : ∀ k, 0 ≤ pdepth (X.take k))
    (hin : pe X = .ok op) :
    compiler_Paren_match pe ('(' :: X ++ [')']) = .ok (some op) := by
  have hlast : ('(' :: (X ++ [')'])).getLast? = some ')' := by
    rw [show '(' :: (X ++ [')']) = ('(' :: X) ++ [')'] from by simp]
    exact List.getLast?_concat _
  show compiler_Paren_match pe ('(' :: (X ++ [')'])) = _
  simp only [compiler_Paren_match]
  rw [if_pos ⟨trivial, hlast⟩]
  rw [List.dropLast_concat]
  rw [if_pos (by
    rw [balance_scan_of_nonneg X 0 (fun k _ => by simpa using hpre k)]
    simpa using h0)]
  rw [hin, except_bind_ok]

theorem compiler_Paren_none_inner (pe : Str → Except PErr Op) (e : Str) (i : ℕ)
    (h1 : 1 ≤ i) (h2 : i + 2 ≤ e.length) (h3 : pdepth (e.take i) = 0) :
    compiler_Paren_match pe e = .ok none := by
  cases e with
  | nil => simp at h2
  | cons c rest =>
    simp only [compiler_Paren_match]
    by_cases hc : c = '(' ∧ (c :: rest).getLast? = some ')'
    · rw [if_pos hc]
      have hscan : balance_scan rest.dropLast 0 < 0 := by
        apply balance_scan_neg _ _ le_rfl
        refine ⟨i - 1, ?_, ?_⟩
        · simp only [List.length_dropLast]
          simp only [List.length_cons] at h2
          omega
        · have htk : rest.dropLast.take (i - 1) = rest.take (i - 1) := by
            rw [List.dropLast_eq_take, List.take_take]
            congr 1
            simp only [List.length_cons] at h2
            omega
          have hdec : pdepth (rest.take (i - 1)) = -1 := by
            have hsplit : (c :: rest).take i = c :: rest.take (i - 1) := by
              obtain ⟨i', rfl⟩ : ∃ i', i = i' + 1 := ⟨i - 1, by omega⟩
              rw [List.take_succ_cons]
              simp
            rw [hsplit, pdepth_cons, hc.1] at h3
            have hp : pstep '(' = 1 := by decide
            rw [hp] at h3
            linarith
          rw [htk, hdec]
          norm_num
      rw [if_neg (by omega : ¬ balance_scan rest.dropLast 0 = 0)]
    · rw [if_neg hc]

theorem mul_split_sum : ∀ n : ℕ, ∀ s : SumE, sizeS s ≤ n → wfS s = true →
    NNaked '*' (renderS s) ∨
    ∃ lhs rhs : SumE, wfS lhs = true ∧ wfS rhs = true ∧
      sizeS lhs < sizeS s ∧ sizeS rhs < sizeS s ∧
      renderS s = renderS lhs ++ '*' :: renderS rhs ∧ NNaked '*' (renderS lhs) := by
  intro n
  induction n using Nat.strong_induction_on with
  | _ n ih =>
    intro s hsz hwf
    cases s with
    | single p =>
      cases p with
      | single a =>
        left
        have hf := ((render_facts (sizeA a)).2.2) a le_rfl (by simpa [wfS, wfP] using hwf)
        exact hf.2.2.2.2
      | times a p' =>
        right
        simp only [wfS, wfP, Bool.and_eq_true] at hwf
        refine ⟨.single (.single a), .single p', ?_, ?_, ?_, ?_, ?_, ?_⟩
        · simpa [wfS, wfP] using hwf.1
        · simpa [wfS] using hwf.2
        · have := sizeP_pos p'
          simp only [sizeS, sizeP, sizeA]
          omega
        · simp only [sizeS, sizeP]
          omega
        · rfl
        · have hf := ((render_facts (sizeA a)).2.2) a le_rfl hwf.1
          exact hf.2.2.2.2
    | plus p rest =>
      simp only [wfS, Bool.and_eq_true] at hwf
      cases p with
      | times a p' =>
        right
        simp only [wfP, Bool.and_eq_true] at hwf
        refine ⟨.single (.single a), .plus p' rest, ?_, ?_, ?_, ?_, ?_, ?_⟩
        · simpa [wfS, wfP] using hwf.1.1
        · simp [wfS, hwf.1.2, hwf.2]
        · have h1 := sizeP_pos p'
          have h2 := sizeS_pos rest
          simp only [sizeS, sizeP, sizeA]
          omega
        · simp only [sizeS, sizeP]
          omega
        · show renderP (.times a p') ++ '+' :: renderS rest
            = renderA a ++ '*' :: (renderP p' ++ '+' :: renderS rest)
          simp [renderP, List.append_assoc]
        · have hf := ((render_facts (sizeA a)).2.2) a le_rfl hwf.1.1
          exact hf.2.2.2.2
      | single a =>
        have hfa := ((render_facts (sizeA a)).2.2) a le_rfl (by simpa [wfP] using hwf.1)
        have hszr : sizeS rest ≤ n - 1 := by
          have := sizeA_pos a
          simp only [sizeS, sizeP] at hsz
          omega
        have hn : n - 1 < n := by
          have := sizeS_pos (SumE.plus (.single a) rest)
          omega
        rcases ih (n - 1) hn rest hszr hwf.2 with hnn | ⟨lhs, rhs, hw1, hw2, hs1, hs2, heq, hnl⟩
        · left
          exact NNaked_append '*' (renderA a) (renderS rest) '+'
            hfa.2.2.2.2 hfa.2.1 (by decide) (by decide) hnn
        · right
          refine ⟨.plus (.single a) lhs, rhs, ?_, hw2, ?_, ?_, ?_, ?_⟩
          · simp only [wfS, wfP, Bool.and_eq_true]
            exact ⟨by simpa [wfP] using hwf.1, hw1⟩
          · simp only [sizeS, sizeP]
            omega
          · simp only [sizeS, sizeP]
            omega
          · show renderA a ++ '+' :: renderS rest
              = (renderA a ++ '+' :: renderS lhs) ++ '*' :: renderS rhs
            rw [heq]
            simp [List.append_assoc]
          · exact NNaked_append '*' (renderA a) (renderS lhs) '+'
              hfa.2.2.2.2 hfa.2.1 (by decide) (by decide) hnl

theorem parse_render_master : ∀ n : ℕ, ∀ s : SumE, sizeS s ≤ n → wfS s = true →
    ∀ fuel : ℕ, (renderS s).length < fuel →
      compiler_parse_expr fuel (renderS s) = .ok (treeS s) := by
  intro n
  induction n using Nat.strong_induction_on with
  | _ n ih =>
    intro s hsz hwf fuel hfuel
    obtain ⟨f, rfl⟩ : ∃ f, fuel = f + 1 := ⟨fuel - 1, by omega⟩
    have hn : n - 1 < n := by
      have := sizeS_pos s
      omega
    show parse_expr_core compiler_Paren_match (f + 1) (renderS s) = .ok (treeS s)
    cases s with
    | plus p rest =>
      have hwf0 := hwf
      have hsz0 := hsz
      simp only [wfS, Bool.and_eq_true] at hwf
      simp only [sizeS] at hsz
      have hPf := ((render_facts (sizeP p)).2.1) p le_rfl hwf.1
      have hRf := ((render_facts (sizeS rest)).1) rest le_rfl hwf.2
      have hPlen : 1 ≤ (renderP p).length := List.length_pos.mpr hPf.1
      have hRlen : 1 ≤ (renderS rest).length := List.length_pos.mpr hRf.1
      have hElen : (renderS (.plus p rest)).length
          = (renderP p).length + 1 + (renderS rest).length := by
        show (renderP p ++ '+' :: renderS rest).length = _
        simp [List.length_append]
        omega
      rw [hElen] at hfuel
      have hsp := sizeS_pos rest
      have hpp := sizeP_pos p
      have hl : parse_expr_core compiler_Paren_match f (renderS (.single p))
          = .ok (treeS (.single p)) :=
        ih (n - 1) hn (.single p) (by simp only [sizeS]; omega)
          (by simpa [wfS] using hwf.1) f (by show (renderP p).length < f; omega)
      have hr : parse_expr_core compiler_Paren_match f (renderS rest)
          = .ok (treeS rest) :=
        ih (n - 1) hn rest (by omega) hwf.2 f (by omega)
      have hAdd : Add_match (parse_expr_core compiler_Paren_match f)
          (renderS (.plus p rest)) = .ok (some (.add (treeP p) (treeS rest))) :=
        Add_match_split _ (renderP p) (renderS rest) (treeP p) (treeS rest)
          hPf.2.2.2 hPf.2.1 hl hr
      obtain ⟨mo, hMul⟩ : ∃ mo, Mul_match (parse_expr_core compiler_Paren_match f)
          (renderS (.plus p rest)) = .ok mo := by
        rcases mul_split_sum n (.plus p rest) hsz0 hwf0 with hnn | hsplit
        · exact ⟨none, Mul_match_none _ _ (nss_single_none _ _ hnn)⟩
        · obtain ⟨lhs, rhs, hw1, hw2, hs1, hs2, heq, hnl⟩ := hsplit
          have hlhsne := ((render_facts (sizeS lhs)).1) lhs le_rfl hw1
          have hrhsne := ((render_facts (sizeS rhs)).1) rhs le_rfl hw2
          have hlen2 : (renderS (.plus p rest)).length
              = (renderS lhs).length + 1 + (renderS rhs).length := by
            rw [heq]; simp [List.length_append]; omega
          have h1 : 1 ≤ (renderS lhs).length := List.length_pos.mpr hlhsne.1
          have h2 : 1 ≤ (renderS rhs).length := List.length_pos.mpr hrhsne.1
          have hll := ih (n - 1) hn lhs (by omega) hw1 f (by rw [hElen] at hlen2; omega)
          have hrr := ih (n - 1) hn rhs (by omega) hw2 f (by rw [hElen] at hlen2; omega)
          refine ⟨some (.mul (treeS lhs) (treeS rhs)), ?_⟩
          rw [heq]
          exact Mul_match_split _ _ _ _ _ hnl
            (((render_facts (sizeS lhs)).1) lhs le_rfl hw1).2.1 hll hrr
      have hPar : compiler_Paren_match (parse_expr_core compiler_Paren_match f)
          (renderS (.plus p rest)) = .ok none := by
        apply compiler_Paren_none_inner _ _ (renderP p).length hPlen
          (by rw [hElen]; omega)
        show pdepth ((renderP p ++ '+' :: renderS rest).take (renderP p).length) = 0
        rw [List.take_left]
        exact hPf.2.1
      rw [parse_expr_core_eval _ f _ _ mo none hAdd hMul hPar]
      rfl
    | single p =>
      cases p with
      | times a p' =>
        simp only [wfS, wfP, Bool.and_eq_true] at hwf
        simp only [sizeS, sizeP] at hsz
        have hAf := ((render_facts (sizeA a)).2.2) a le_rfl hwf.1
        have hPf := ((render_facts (sizeP p')).2.1) p' le_rfl hwf.2
        have hAlen : 1 ≤ (renderA a).length := List.length_pos.mpr hAf.1
        have hPlen : 1 ≤ (renderP p').length := List.length_pos.mpr hPf.1
        have hElen : (renderS (.single (.times a p'))).length
            = (renderA a).length + 1 + (renderP p').length := by
          show (renderA a ++ '*' :: renderP p').length = _
          simp [List.length_append]
          omega
        rw [hElen] at hfuel
        have hap := sizeA_pos a
        have hpp := sizeP_pos p'
        have hl : parse_expr_core compiler_Paren_match f (renderS (.single (.single a)))
            = .ok (treeS (.single (.single a))) :=
          ih (n - 1) hn (.single (.single a)) (by simp only [sizeS, sizeP]; omega)
            (by simpa [wfS, wfP] using hwf.1) f
            (by show (renderA a).length < f; omega)
        have hr : parse_expr_core compiler_Paren_match f (renderS (.single p'))
            = .ok (treeS (.single p')) :=
          ih (n - 1) hn (.single p') (by simp only [sizeS]; omega)
            (by simpa [wfS] using hwf.2) f
            (by show (renderP p').length < f; omega)
        have hAdd : Add_match (parse_expr_core compiler_Paren_match f)
            (renderS (.single (.times a p'))) = .ok none := by
          apply Add_match_none
          apply nss_single_none
          exact NNaked_append '+' (renderA a) (renderP p') '*'
            hAf.2.2.2.1 hAf.2.1 (by decide) (by decide) hPf.2.2.2
        have hMul : Mul_match (parse_expr_core compiler_Paren_match f)
            (renderS (.single (.times a p')))
            = .ok (some (.mul (treeA a) (treeP p'))) :=
          Mul_match_split _ (renderA a) (renderP p') (treeA a) (treeP p')
            hAf.2.2.2.2 hAf.2.1 hl hr
        have hPar : compiler_Paren_match (parse_expr_core compiler_Paren_match f)
            (renderS (.single (.times a p'))) = .ok none := by
          apply compiler_Paren_none_inner _ _ (renderA a).length hAlen
            (by rw [hElen]; omega)
          show pdepth ((renderA a ++ '*' :: renderP p').take (renderA a).length) = 0
          rw [List.take_left]
          exact hAf.2.1
        rw [parse_expr_core_eval _ f _ none _ none hAdd hMul hPar]
        rfl
      | single a =>
        cases a with
        | num ip fp =>
          have hwfa : wfA (.num ip fp) = true := by simpa [wfS, wfP] using hwf
          have hchars := renderA_num_chars ip fp hwfa
          have hAf := ((render_facts (sizeA (.num ip fp))).2.2) (.num ip fp) le_rfl hwfa
          have hAdd : Add_match (parse_expr_core compiler_Paren_match f)
              (renderS (.single (.single (.num ip fp)))) = .ok none :=
            Add_match_none _ _ (nss_single_none _ _
              (NNaked_of_chars '+' _ hchars (by decide) (by decide)))
          have hMul : Mul_match (parse_expr_core compiler_Paren_match f)
              (renderS (.single (.single (.num ip fp)))) = .ok none :=
            Mul_match_none _ _ (nss_single_none _ _
              (NNaked_of_chars '*' _ hchars (by decide) (by decide)))
          have hPar : compiler_Paren_match (parse_expr_core compiler_Paren_match f)
              (renderS (.single (.single (.num ip fp)))) = .ok none := by
            cases he : renderA (.num ip fp) with
            | nil => exact absurd he hAf.1
            | cons c t =>
              have hcmem : c ∈ renderA (.num ip fp) := by rw [he]; simp
              have hcne : c ≠ '(' := by
                rcases hchars c hcmem with hd | rfl
                · exact (digit_char_facts c hd).2.2.2.1
                · decide
              show compiler_Paren_match _ (renderA (.num ip fp)) = .ok none
              rw [he]
              exact compiler_Paren_match_head _ _ _ hcne
          have hC : Constant_match (renderS (.single (.single (.num ip fp))))
              = some (.const (numValQ ip fp)) := by
            show Constant_match (renderA (.num ip fp)) = _
            rw [Constant_match, pyFloat_renderA_num ip fp hwfa]
            rfl
          rw [parse_expr_core_eval _ f _ none none none hAdd hMul hPar]
          rw [hC]
          rfl
        | paren s' =>
          have hwfs : wfS s' = true := by simpa [wfS, wfP, wfA] using hwf
          simp only [sizeS, sizeP, sizeA] at hsz
          have hSf := ((render_facts (sizeS s')).1) s' le_rfl hwfs
          have hElen : (renderS (.single (.single (.paren s')))).length
              = (renderS s').length + 2 := by
            show ('(' :: renderS s' ++ [')']).length = _
            simp
          rw [hElen] at hfuel
          have hsub : parse_expr_core compiler_Paren_match f (renderS s')
              = .ok (treeS s') :=
            ih (n - 1) hn s' (by omega) hwfs f (by omega)
          have hAdd : Add_match (parse_expr_core compiler_Paren_match f)
              (renderS (.single (.single (.paren s')))) = .ok none :=
            Add_match_none _ _ (nss_single_none _ _
              (NNaked_paren '+' (renderS s') (by decide) (by decide) hSf.2.2))
          have hMul : Mul_match (parse_expr_core compiler_Paren_match f)
              (renderS (.single (.single (.paren s')))) = .ok none :=
            Mul_match_none _ _ (nss_single_none _ _
              (NNaked_paren '*' (renderS s') (by decide) (by decide) hSf.2.2))
          have hPar : compiler_Paren_match (parse_expr_core compiler_Paren_match f)
              (renderS (.single (.single (.paren s')))) = .ok (some (treeS s')) :=
            compiler_Paren_match_wrap _ (renderS s') (treeS s') hSf.2.1 hSf.2.2 hsub
          rw [parse_expr_core_eval _ f _ none none _ hAdd hMul hPar]
          rfl

theorem evalOp_tree : ∀ n : ℕ,
    (∀ s : SumE, sizeS s ≤ n → evalOp (treeS s) = evalS s) ∧
    (∀ p : ProdE, sizeP p ≤ n → evalOp (treeP p) = evalP p) ∧
    (∀ a : AtomE, sizeA a ≤ n → evalOp (treeA a) = evalA a) := by
  intro n
  induction n using Nat.strong_induction_on with
  | _ n ih =>
    have hn : ∀ m, 1 ≤ m → m ≤ n → n - 1 < n := fun m h1 h2 => by omega
    refine ⟨?_, ?_, ?_⟩
    · intro s hsz
      cases s with
      | single p =>
        simp only [sizeS] at hsz
        exact ((ih (n - 1) (by omega)).2.1) p (by omega)
      | plus p rest =>
        simp only [sizeS] at hsz
        have h1 := sizeP_pos p
        have h2 := sizeS_pos rest
        show evalOp (.add (treeP p) (treeS rest)) = evalP p + evalS rest
        simp only [evalOp]
        rw [((ih (n - 1) (by omega)).2.1) p (by omega),
          ((ih (n - 1) (by omega)).1) rest (by omega)]
    · intro p hsz
      cases p with
      | single a =>
        simp only [sizeP] at hsz
        exact ((ih (n - 1) (by omega)).2.2) a (by omega)
      | times a p' =>
        simp only [sizeP] at hsz
        have h1 := sizeA_pos a
        have h2 := sizeP_pos p'
        show evalOp (.mul (treeA a) (treeP p')) = evalA a * evalP p'
        simp only [evalOp]
        rw [((ih (n - 1) (by omega)).2.2) a (by omega),
          ((ih (n - 1) (by omega)).2.1) p' (by omega)]
    · intro a hsz
      cases a with
      | num ip fp => rfl
      | paren s' =>
        simp only [sizeA] at hsz
        have h1 := sizeS_pos s'
        exact ((ih (n - 1) (by omega)).1) s' (by omega)

/-- Claim C1: for every valid expression over non-negative numerals,
`+`, `*` and balanced parentheses (the language of the stratified
grammar `SumE`), `compiler.py`'s `parse_expr` succeeds, and evaluating
the resulting tree — interpreting `Constant.codegen` as the numeric
constant, `Add.codegen` as addition and `Mul.codegen` as
multiplication — yields the value of the expression under standard
arithmetic precedence (`*` over `+`, parentheses grouping); since
rational addition and multiplication are associative, this is also the
left-to-right evaluation the claim describes. -/
theorem c1_valid_expressions_parse_and_evaluate (s : SumE) (h : wfS s = true) :
    ∃ t : Op, compiler_parse (renderS s) = .ok t ∧ evalOp t = evalS s := by
  refine ⟨treeS s, ?_, ?_⟩
  · show compiler_parse_expr ((renderS s).length + 1) (renderS s) = _
    exact parse_render_master (sizeS s) s le_rfl h _ (by omega)
  · exact ((evalOp_tree (sizeS s)).1) s le_rfl

theorem c1_valid_expressions_witness :
    ∃ t : Op, compiler_parse ("1+2*3".data) = .ok t ∧ evalOp t = 7 := by
  obtain ⟨t, h1, h2⟩ := c1_valid_expressions_parse_and_evaluate
    (.plus (.single (.num ['1'] none))
      (.single (.times (.num ['2'] none) (.single (.num ['3'] none)))))
    (by decide)
  refine ⟨t, h1, ?_⟩
  rw [h2]
  rw [show evalS (.plus (.single (.num ['1'] none))
      (.single (.times (.num ['2'] none) (.single (.num ['3'] none)))))
    = numValQ ['1'] none + numValQ ['2'] none * numValQ ['3'] none from rfl]
  rw [show numValQ ['1'] none = 1 from by decide]
  rw [show numValQ ['2'] none = 2 from by decide]
  rw [show numValQ ['3'] none = 3 from by decide]
  norm_num
